import Mathlib

/-!
# Verification of minirust's enum translation (`tooling/minimize/src/enums.rs`)

This file gives a shallow embedding of the enum-layout translation of the
minimize tool: the construction of the `Type::Enum` value (variants map,
tagger per variant, and the `Discriminator` decision tree) from a resolved
layout, together with `int_from_bits` and `discriminant_for_variant`.

External collaborators of the translated code (the layout engine, the
translated field types, `translate_ty`) are represented by the data they
supply, as described by the input contract; the functions of `enums.rs`
are translated operation by operation.  Panics are modelled by `Option`.
-/

/-- The `Signedness` of an integer type (libspecr). -/
inductive Signedness where
  | Signed : Signedness
  | Unsigned : Signedness
deriving DecidableEq, Repr

/-- A byte-granularity `Size` (libspecr); `bits = 8 * bytes`. -/
structure Size where
  bytes : Nat
deriving DecidableEq, Repr

/-- The number of bits of a `Size`. -/
def Size.bits (s : Size) : Nat := 8 * s.bytes

/-- minirust `IntType`: a signedness together with a byte-size. -/
structure IntType where
  signed : Signedness
  size : Size
deriving DecidableEq, Repr

/-- minirust `Offset` is a `Size` (a byte offset). -/
abbrev Offset := Size

/-- Alignment; its internal structure is irrelevant here. -/
abbrev Align := Nat

/-- minirust `Discriminator`: the decision tree that resolves a stored tag to
the active variant.  `Branch` reads an integer of `value_type` at `offset`,
looks it up among the `children` ranges `[lo, hi]` and falls back to
`fallback` when no range contains it. -/
inductive Discriminator where
  | Known : Int → Discriminator
  | Invalid : Discriminator
  | Branch : Offset → IntType → List ((Int × Int) × Discriminator) → Discriminator → Discriminator

mutual
/-- The fragment of minirust `Type` used by the enum translation:
integer types, tuples (the per-variant field aggregates) and enums.
`bool` stands in for the non-integer scalar types. -/
inductive Ty where
  | int : IntType → Ty
  | bool : Ty
  | tuple : List (Offset × Ty) → Size → Align → Ty
  | enumT : List (Int × Variant) → Discriminator → IntType → Size → Align → Ty

/-- minirust `Variant`: the variant's field aggregate type and its tagger
(the tag writes required to materialize the variant). -/
inductive Variant where
  | mk : Ty → List (Offset × (IntType × Int)) → Variant
end

/-- The field-aggregate type of a `Variant`. -/
def Variant.ty : Variant → Ty
  | .mk t _ => t

/-- The tagger of a `Variant`. -/
def Variant.tagger : Variant → List (Offset × (IntType × Int))
  | .mk _ tg => tg

/-- Holds (`true`) exactly on `Discriminator.Invalid`. -/
def Discriminator.isInvalid : Discriminator → Bool
  | .Invalid => true
  | _ => false

/-- Holds (`true`) exactly on `Discriminator.Branch`. -/
def Discriminator.isBranch : Discriminator → Bool
  | .Branch _ _ _ _ => true
  | _ => false

/-! ## Key-unique maps

minirust `Map` is a key-unique associative container (a `BTreeMap`); only
membership and lookup are semantically relied upon (the spec forbids
relying on iteration order).  We model it as an association list where
insertion replaces any previous binding of the key. -/

/-- Lookup in an association list. -/
def mapGet {K V : Type} [DecidableEq K] (m : List (K × V)) (k : K) : Option V :=
  match m.find? (fun p => decide (p.1 = k)) with
  | some p => some p.2
  | none => none

/-- Insert into an association list, replacing any previous binding. -/
def mapInsert {K V : Type} [DecidableEq K] (m : List (K × V)) (k : K) (v : V) :
    List (K × V) :=
  (k, v) :: m.filter (fun p => decide (p.1 ≠ k))

/-- Keys of an association list are pairwise distinct. -/
def nodupKeys {K V : Type} (m : List (K × V)) : Prop :=
  (m.map Prod.fst).Nodup

/-! ## Integer codec -/

/-- The `rs::Size::signed_int_min` bound for a bit width: `-2 ^ (w - 1)`. -/
def signed_int_min (bits : Nat) : Int := -(2 ^ (bits - 1))

/-- The `rs::Size::signed_int_max` bound for a bit width: `2 ^ (w - 1) - 1`. -/
def signed_int_max (bits : Nat) : Int := 2 ^ (bits - 1) - 1

/-- The `rs::Size::unsigned_int_max` bound for a bit width: `2 ^ w - 1`. -/
def unsigned_int_max (bits : Nat) : Int := 2 ^ bits - 1

/-- The least value representable in an `IntType` (the `min` of
`translate_enum`'s domain computation, lines 88-89 of `enums.rs`). -/
def int_type_min (t : IntType) : Int :=
  match t.signed with
  | .Signed => signed_int_min t.size.bits
  | .Unsigned => 0

/-- The greatest value representable in an `IntType` (the `max` of
`translate_enum`'s domain computation, lines 88-89 of `enums.rs`). -/
def int_type_max (t : IntType) : Int :=
  match t.signed with
  | .Signed => signed_int_max t.size.bits
  | .Unsigned => unsigned_int_max t.size.bits

/-- The function `int_from_bits(bits, ity)` of `enums.rs`: interpret a raw `u128` bit
pattern at the width of `ity`; truncate when unsigned
(`rs_size.truncate`), sign-extend from bit `w - 1` when signed
(`rs_size.sign_extend … as i128`). -/
def int_from_bits (bits : Nat) (ity : IntType) : Int :=
  let w := ity.size.bits
  let t : Nat := bits % 2 ^ w
  match ity.signed with
  | .Unsigned => (t : Int)
  | .Signed => if t < 2 ^ (w - 1) then (t : Int) else (t : Int) - 2 ^ w

/-- Modelled from the spec: libspecr's `Int::modulo(signed, size)`
(the libspecr crate is not part of the given sources) — "normalizes an
arbitrary integer into the representable domain of a width/signedness
pair via wraparound (two's-complement-style)". -/
def Int.modulo (v : Int) (signed : Signedness) (size : Size) : Int :=
  let w := size.bits
  match signed with
  | .Unsigned => v.emod (2 ^ w)
  | .Signed => (v + 2 ^ (w - 1)).emod (2 ^ w) - 2 ^ (w - 1)

/-- Modelled from the spec: `translate_size` (defined elsewhere in the
minimize crate, not in the given sources) is the unit conversion from the
layout engine's sizes to byte-granularity `Size`; byte counts are
preserved. -/
def translate_size (s : Size) : Size := s

/-- Modelled from the spec: `translate_align`, the align unit conversion,
preserving the alignment quantity. -/
def translate_align (a : Align) : Align := a

/-! ## The input contract

`translate_enum` consumes a resolved layout supplied by the external
layout engine (trusted, not re-validated) together with the results of
the external `translate_ty` / `translate_fields` collaborators. -/

/-- The `rs::TagEncoding` data: direct tagging, or niche tagging with the untagged
variant index, the first niche variant index (`niche_variants.start`),
and the `niche_start` offset. -/
inductive TagEncoding where
  | Direct : TagEncoding
  | Niche : Nat → Nat → Nat → TagEncoding
deriving DecidableEq, Repr

/-- The tag scalar of a `Variants::Multiple` layout: the translation of
its primitive integer type (`translate_ty(tag.primitive().to_int_ty(tcx))`)
and its raw `u128` valid range bounds (`tag.valid_range`). -/
structure TagInfo where
  prim_translated : Ty
  valid_range_start : Nat
  valid_range_end : Nat

/-- The `rs::Variants` layout: a single-variant layout (with the variant index), or a
multiple-variant layout with tag information, tag encoding and the byte
offset of the tag field (`layout.fields().offset(tag_field)`). -/
inductive VariantsLayout where
  | Single : Nat → VariantsLayout
  | Multiple : TagInfo → TagEncoding → Size → VariantsLayout

/-- Per-variant data: the raw `u128` discriminant bit pattern
(`adt_def.discriminant_for_variant(tcx, idx).val`) and the variant's
translated fields (the output of the external `translate_fields`). -/
structure VariantInfo where
  discr_val : Nat
  fields : List (Offset × Ty)

/-- Everything `translate_enum` reads from `ty`, `adt_def`, `sref`, `tcx`:
the layout's size and align, the translated logical discriminant type
(`translate_ty(ty.discriminant_ty(tcx))`), the variants layout, and the
variant list in index order. -/
structure EnumInput where
  size : Size
  align : Align
  discriminant_ty_translated : Ty
  layout_variants : VariantsLayout
  adt_variants : List VariantInfo

/-- The loop body of `translate_enum`'s `for (variant_idx, variant_def)`
loop (lines 47-73 of `enums.rs`), acting on the accumulated
`(translated_variants, discriminator_branches)` pair. -/
def translate_variant_step (size : Size) (align : Align)
    (discriminant_ty tag_ty : IntType) (tag_offset : Offset) (enc : TagEncoding)
    (acc : List (Int × Variant) × List ((Int × Int) × Discriminator))
    (p : Nat × VariantInfo) :
    List (Int × Variant) × List ((Int × Int) × Discriminator) :=
  let fields := p.2.fields
  let discr_int := int_from_bits p.2.discr_val discriminant_ty
  match enc with
  | .Direct =>
      let tagger := [(tag_offset, (tag_ty, discr_int))]
      let variant := Variant.mk (Ty.tuple fields size align) tagger
      (mapInsert acc.1 discr_int variant,
       mapInsert acc.2 (discr_int, discr_int) (Discriminator.Known discr_int))
  | .Niche untagged niche_variants_start niche_start =>
      if untagged ≠ p.1 then
        -- a tagged variant: the discriminant is re-read at the tag's width
        let discr_int := int_from_bits p.2.discr_val tag_ty
        let tag_int := (discr_int - (niche_variants_start : Int) + (niche_start : Int)).modulo
          tag_ty.signed tag_ty.size
        let tagger := [(tag_offset, (tag_ty, tag_int))]
        (mapInsert acc.1 discr_int (Variant.mk (Ty.tuple fields size align) tagger),
         mapInsert acc.2 (tag_int, tag_int) (Discriminator.Known discr_int))
      else
        -- the untagged variant: no tagger entry, no discriminator branch
        (mapInsert acc.1 discr_int (Variant.mk (Ty.tuple fields size align) []), acc.2)

/-- The niche-tagging invalid-range registration of `translate_enum`
(lines 82-100 of `enums.rs`): derive the invalid tag ranges from the
tag's valid range and add them to the discriminator branches. -/
def add_niche_invalids (tag_ty : IntType) (valid_start valid_end : Nat)
    (db : List ((Int × Int) × Discriminator)) :
    List ((Int × Int) × Discriminator) :=
  let rstart := int_from_bits valid_start tag_ty
  let rend := int_from_bits valid_end tag_ty
  if rstart ≤ rend then
    let min := int_type_min tag_ty
    let max := int_type_max tag_ty
    let db1 := if rend < max then mapInsert db (rend + 1, max) Discriminator.Invalid else db
    if min < rstart then mapInsert db1 (min, rstart - 1) Discriminator.Invalid else db1
  else if rend + 1 < rstart then
    mapInsert db (rend + 1, rstart - 1) Discriminator.Invalid
  else db

/-- The function `translate_enum` of `enums.rs`.  Panics (the non-integer discriminant
type, the non-integer tag primitive, and variant-index failures) are
modelled by `none`. -/
def translate_enum (input : EnumInput) : Option Ty :=
  let size := translate_size input.size
  let align := translate_align input.align
  match input.discriminant_ty_translated with
  | Ty.int discriminant_ty =>
    match input.layout_variants with
    | .Single index =>
      match input.adt_variants.get? index with
      | some vinfo =>
          some (Ty.enumT
            [((0 : Int), Variant.mk (Ty.tuple vinfo.fields size align) [])]
            (Discriminator.Known 0) discriminant_ty size align)
      | none => none
    | .Multiple tag enc tag_field_offset =>
      let tag_offset := translate_size tag_field_offset
      match tag.prim_translated with
      | Ty.int tag_ty =>
        let acc := (input.adt_variants.enum).foldl
          (translate_variant_step size align discriminant_ty tag_ty tag_offset enc)
          ([], [])
        let cf : List ((Int × Int) × Discriminator) × Discriminator :=
          match enc with
          | .Direct => (acc.2, Discriminator.Invalid)
          | .Niche untagged _ _ =>
              (add_niche_invalids tag_ty tag.valid_range_start tag.valid_range_end acc.2,
               Discriminator.Known (untagged : Int))
        some (Ty.enumT acc.1
          (Discriminator.Branch tag_offset tag_ty cf.1 cf.2)
          discriminant_ty size align)
      | _ => none
  | _ => none

/-- The kind of an `rs::Ty` as far as `discriminant_for_variant` inspects
it: an ADT (with its enum-ness, variant list and translated discriminant
type) or anything else. -/
inductive RsTyKind where
  | Adt : Bool → List VariantInfo → Ty → RsTyKind
  | NotAdt : RsTyKind

/-- An `rs::Ty` as consumed by `discriminant_for_variant`. -/
structure RsTy where
  kind : RsTyKind

/-- The function `discriminant_for_variant` of `enums.rs`: panic (modelled by `none`)
on a non-ADT type, on a non-enum ADT (the `assert!`), and on a
non-integer discriminant type; otherwise the variant's raw discriminant
interpreted at the logical discriminant type. -/
def discriminant_for_variant (ty : RsTy) (variant_idx : Nat) : Option Int :=
  match ty.kind with
  | .Adt is_enum vars dty_translated =>
    if is_enum then
      match dty_translated with
      | Ty.int discriminant_ty =>
        match vars.get? variant_idx with
        | some vinfo => some (int_from_bits vinfo.discr_val discriminant_ty)
        | none => none
      | _ => none
    else none
  | .NotAdt => none

/-! ## Discriminator semantics (output contract)

The interpreter that consumes a `Discriminator` is outside the given
sources; its decision procedure is modelled from the spec. -/

/-- Modelled from the spec: one step of the interpreter's `Branch`
resolution — "look up which non-overlapping `[lo, hi]` range in
`children` contains it …; if none match, recurse into `fallback`". -/
def decide_discriminator (children : List ((Int × Int) × Discriminator))
    (fallback : Discriminator) (v : Int) : Discriminator :=
  match children.find? (fun e => decide (e.1.1 ≤ v ∧ v ≤ e.1.2)) with
  | some e => e.2
  | none => fallback

/-- Modelled from the spec: value `v` resolves to outcome `d` — either
some child's range contains `v` and `d` is that child's node, or no
child's range contains `v` and `d` is the fallback. -/
def resolvesTo (children : List ((Int × Int) × Discriminator))
    (fallback : Discriminator) (v : Int) (d : Discriminator) : Prop :=
  (∃ e ∈ children, e.1.1 ≤ v ∧ v ≤ e.1.2 ∧ e.2 = d) ∨
  ((∀ e ∈ children, ¬ (e.1.1 ≤ v ∧ v ≤ e.1.2)) ∧ d = fallback)

/-- A `Known v` terminal is reachable from a discriminator: directly, or
through a branch child, or through a branch fallback. -/
inductive ReachesKnown : Discriminator → Int → Prop where
  | here (v : Int) : ReachesKnown (Discriminator.Known v) v
  | child {off ty children fallback e v} (he : e ∈ children)
      (h : ReachesKnown (Prod.snd e) v) :
      ReachesKnown (Discriminator.Branch off ty children fallback) v
  | fallback {off ty children fallback v} (h : ReachesKnown fallback v) :
      ReachesKnown (Discriminator.Branch off ty children fallback) v

/-! ## Projections used to state the claims -/

/-- The variants map of a translated enum (empty for non-enums). -/
def enumVariantsOf : Option Ty → List (Int × Variant)
  | some (Ty.enumT vs _ _ _ _) => vs
  | _ => []

/-- The discriminator of a translated enum (`Invalid` for non-enums). -/
def discriminatorOf : Option Ty → Discriminator
  | some (Ty.enumT _ d _ _ _) => d
  | _ => Discriminator.Invalid

/-- The children of a `Branch` discriminator (else the empty list). -/
def branchChildrenOf : Discriminator → List ((Int × Int) × Discriminator)
  | .Branch _ _ c _ => c
  | _ => []

/-- The fallback of a `Branch` discriminator (else the node itself). -/
def branchFallbackOf : Discriminator → Discriminator
  | .Branch _ _ _ f => f
  | d => d

/-- A `Variants::Multiple` input to `translate_enum` whose external type
translations resolved to integer types, assembled from its components. -/
def mkMultipleInput (sz : Size) (al : Align) (dty tty : IntType)
    (vstart vend : Nat) (enc : TagEncoding) (off : Offset)
    (vars : List VariantInfo) : EnumInput :=
  { size := sz, align := al
  , discriminant_ty_translated := Ty.int dty
  , layout_variants := VariantsLayout.Multiple ⟨Ty.int tty, vstart, vend⟩ enc off
  , adt_variants := vars }

/-- A `Variants::Single` input to `translate_enum`. -/
def mkSingleInput (sz : Size) (al : Align) (dty : IntType) (index : Nat)
    (vars : List VariantInfo) : EnumInput :=
  { size := sz, align := al
  , discriminant_ty_translated := Ty.int dty
  , layout_variants := VariantsLayout.Single index
  , adt_variants := vars }

/-- The niche tag value assigned to a variant with the given raw
discriminant bits: `modulo(discr - niche_variants.start + niche_start,
tag_ty)` with the discriminant read at the tag's width (line 61-62 of
`enums.rs`). -/
def niche_tag (tag_ty : IntType) (niche_variants_start niche_start : Nat)
    (discr_val : Nat) : Int :=
  (int_from_bits discr_val tag_ty - (niche_variants_start : Int) +
    (niche_start : Int)).modulo tag_ty.signed tag_ty.size

/-- Membership in the tag's declared valid range `[rstart, rend]`, which
may wrap around the domain. -/
def validTag (rstart rend v : Int) : Prop :=
  (rstart ≤ rend ∧ rstart ≤ v ∧ v ≤ rend) ∨
  (rend < rstart ∧ (v ≤ rend ∨ rstart ≤ v))

/-- The possible keys of the `Invalid` children registered by
`add_niche_invalids`, with the conditions under which each is added. -/
def invalidKeyOk (rstart rend min max : Int) (k : Int × Int) : Prop :=
  (rstart ≤ rend ∧
    ((rend < max ∧ k = (rend + 1, max)) ∨ (min < rstart ∧ k = (min, rstart - 1)))) ∨
  (rend + 1 < rstart ∧ k = (rend + 1, rstart - 1))

/-- Branch children are pairwise non-overlapping: distinct entries have
disjoint ranges. -/
def pairwiseDisjointChildren (children : List ((Int × Int) × Discriminator)) : Prop :=
  ∀ e1 ∈ children, ∀ e2 ∈ children, e1.1 ≠ e2.1 →
    e1.1.2 < e2.1.1 ∨ e2.1.2 < e1.1.1

/-! ## Association-list lemmas -/

theorem find?_filter_of_imp {α : Type} (l : List α) (p q : α → Bool)
    (h : ∀ x, p x = true → q x = true) :
    (l.filter q).find? p = l.find? p := by
  induction l with
  | nil => rfl
  | cons a t ih =>
    by_cases hq : q a = true
    · rw [List.filter_cons_of_pos hq]
      by_cases hp : p a = true
      · rw [List.find?_cons_of_pos _ hp, List.find?_cons_of_pos _ hp]
      · rw [List.find?_cons_of_neg _ (by simpa using hp),
            List.find?_cons_of_neg _ (by simpa using hp), ih]
    · rw [List.filter_cons_of_neg (by simpa using hq), ih,
          List.find?_cons_of_neg]
      simp only [Bool.not_eq_true]
      cases hpa : p a with
      | false => rfl
      | true => exact absurd (h a hpa) hq

theorem mapGet_mapInsert_self {K V : Type} [DecidableEq K]
    (m : List (K × V)) (k : K) (v : V) :
    mapGet (mapInsert m k v) k = some v := by
  simp [mapGet, mapInsert, List.find?_cons_of_pos]

theorem mapGet_mapInsert_ne {K V : Type} [DecidableEq K]
    (m : List (K × V)) (k k' : K) (v : V) (h : k' ≠ k) :
    mapGet (mapInsert m k v) k' = mapGet m k' := by
  unfold mapGet mapInsert
  rw [List.find?_cons_of_neg _ (by simp only [decide_eq_true_eq]; exact fun hh => h hh.symm)]
  rw [find?_filter_of_imp]
  intro x hx
  simp only [decide_eq_true_eq] at hx ⊢
  exact fun hxk => h (hx.symm.trans hxk)

theorem mem_mapInsert {K V : Type} [DecidableEq K]
    {m : List (K × V)} {k : K} {v : V} {p : K × V} :
    p ∈ mapInsert m k v ↔ p = (k, v) ∨ (p ∈ m ∧ p.1 ≠ k) := by
  simp [mapInsert, List.mem_filter]

theorem mem_of_mapGet_eq_some {K V : Type} [DecidableEq K]
    {m : List (K × V)} {k : K} {v : V} (h : mapGet m k = some v) :
    (k, v) ∈ m := by
  unfold mapGet at h
  cases hf : m.find? (fun p => decide (p.1 = k)) with
  | none => rw [hf] at h; exact absurd h (by simp)
  | some p =>
    rw [hf] at h
    have hmem := List.mem_of_find?_eq_some hf
    have hpk := List.find?_some hf
    simp only [decide_eq_true_eq] at hpk
    have hv : p.2 = v := by simpa using h
    have : p = (k, v) := Prod.ext hpk hv
    exact this ▸ hmem

theorem mapGet_ne_none_mapInsert {K V : Type} [DecidableEq K]
    {m : List (K × V)} {k : K} (k' : K) (v : V) (h : mapGet m k ≠ none) :
    mapGet (mapInsert m k' v) k ≠ none := by
  by_cases hk : k = k'
  · subst hk; rw [mapGet_mapInsert_self]; simp
  · rw [mapGet_mapInsert_ne _ _ _ _ hk]; exact h

theorem nodupKeys_nil {K V : Type} : nodupKeys ([] : List (K × V)) := by
  simp [nodupKeys]

theorem nodupKeys_mapInsert {K V : Type} [DecidableEq K]
    {m : List (K × V)} (h : nodupKeys m) (k : K) (v : V) :
    nodupKeys (mapInsert m k v) := by
  unfold nodupKeys mapInsert
  simp only [List.map_cons, List.nodup_cons]
  constructor
  · intro hk
    rw [List.mem_map] at hk
    obtain ⟨x, hx, hfx⟩ := hk
    rw [List.mem_filter] at hx
    have := hx.2
    simp only [decide_eq_true_eq] at this
    exact this hfx
  · have : (m.map Prod.fst).filter (fun a => decide (a ≠ k)) =
        (m.filter (fun p => decide (p.1 ≠ k))).map Prod.fst :=
      List.filter_map (p := fun a => decide (a ≠ k)) Prod.fst m
    rw [← this]
    exact List.Nodup.filter _ h

theorem nodupKeys_val_eq {K V : Type} {m : List (K × V)} (h : nodupKeys m)
    {k : K} {v1 v2 : V} (h1 : (k, v1) ∈ m) (h2 : (k, v2) ∈ m) : v1 = v2 := by
  induction m with
  | nil => cases h1
  | cons a t ih =>
    unfold nodupKeys at h
    simp only [List.map_cons, List.nodup_cons] at h
    rcases List.mem_cons.mp h1 with rfl | h1'
    · rcases List.mem_cons.mp h2 with h2e | h2'
      · exact (congrArg Prod.snd h2e).symm
      · exact absurd (List.mem_map.mpr ⟨(k, v2), h2', rfl⟩) h.1
    · rcases List.mem_cons.mp h2 with rfl | h2'
      · exact absurd (List.mem_map.mpr ⟨(k, v1), h1', rfl⟩) h.1
      · exact ih h.2 h1' h2'

/-! ## Fold lemmas -/

theorem foldl_invariant {α β : Type} (P : β → Prop) (f : β → α → β)
    (l : List α) (init : β) (h0 : P init)
    (hstep : ∀ b a, a ∈ l → P b → P (f b a)) : P (l.foldl f init) := by
  induction l generalizing init with
  | nil => exact h0
  | cons x xs ih =>
    exact ih (f init x) (hstep init x (List.mem_cons_self x xs) h0)
      (fun b a ha hb => hstep b a (List.mem_cons_of_mem x ha) hb)

theorem foldl_mem_invariant {α β : Type} (P : β → Prop) (f : β → α → β)
    (a : α) (hest : ∀ b, P (f b a)) :
    ∀ (l : List α), a ∈ l → (∀ b a', a' ∈ l → P b → P (f b a')) →
      ∀ init, P (l.foldl f init) := by
  intro l
  induction l with
  | nil => intro ha; cases ha
  | cons x xs ih =>
    intro ha hpres init
    rcases List.mem_cons.mp ha with rfl | ha'
    · exact foldl_invariant P f xs (f init a) (hest init)
        (fun b a' h hb => hpres b a' (List.mem_cons_of_mem _ h) hb)
    · exact ih ha' (fun b a' h hb => hpres b a' (List.mem_cons_of_mem _ h) hb)
        (f init x)

/-! ## Integer codec lemmas -/

/-- Modelled from the spec: the compiler-side two's-complement bit
pattern (a raw `u128`-style natural) of a value representable in the
given integer type; `int_from_bits` must be its exact inverse. -/
def to_bits (v : Int) (ity : IntType) : Nat := (v.emod (2 ^ ity.size.bits)).toNat

theorem int_from_bits_range (v : Nat) (t : IntType) :
    int_type_min t ≤ int_from_bits v t ∧ int_from_bits v t ≤ int_type_max t := by
  obtain ⟨s, ⟨nb⟩⟩ := t
  have hw : Size.bits ⟨nb⟩ = 8 * nb := rfl
  set w := 8 * nb with hwd
  have hpos : 0 < 2 ^ w := Nat.pos_pow_of_pos w (by norm_num)
  have hlt : v % 2 ^ w < 2 ^ w := Nat.mod_lt _ hpos
  have hlt' : ((v % 2 ^ w : Nat) : Int) < 2 ^ w := by exact_mod_cast hlt
  have hge : (0:Int) ≤ ((v % 2 ^ w : Nat) : Int) := Int.ofNat_nonneg _
  cases s with
  | Unsigned =>
    simp only [int_from_bits, int_type_min, int_type_max, unsigned_int_max, hw]
    constructor
    · exact hge
    · linarith
  | Signed =>
    simp only [int_from_bits, int_type_min, int_type_max, signed_int_min, signed_int_max, hw]
    by_cases hc : v % 2 ^ w < 2 ^ (w - 1)
    · have hc' : ((v % 2 ^ w : Nat) : Int) < 2 ^ (w - 1) := by exact_mod_cast hc
      have hp : (0:Int) < 2 ^ (w - 1) := by positivity
      simp only [hc, if_true]
      constructor <;> linarith
    · have hc' : (2:Int) ^ (w - 1) ≤ ((v % 2 ^ w : Nat) : Int) := by
        have : 2 ^ (w - 1) ≤ v % 2 ^ w := Nat.le_of_not_lt hc
        exact_mod_cast this
      have hw1 : 1 ≤ w := by
        by_contra hcon
        have : w = 0 := by omega
        rw [this] at hc
        simp at hc
        omega
      have h2w : (2:Int) ^ w = 2 * 2 ^ (w - 1) := by
        conv_lhs => rw [show w = (w - 1) + 1 from by omega]
        rw [pow_succ]; ring
      simp only [hc, if_false]
      constructor <;> linarith

theorem int_from_bits_width_zero (v : Nat) (t : IntType) (h : t.size.bits = 0) :
    int_from_bits v t = 0 := by
  obtain ⟨s, ⟨nb⟩⟩ := t
  have hb : nb = 0 := by
    have : 8 * nb = 0 := h
    omega
  subst hb
  cases s <;> simp [int_from_bits, Size.bits, Nat.mod_one]

theorem modulo_emod (v : Int) (s : Signedness) (size : Size) :
    Int.modulo v s size % 2 ^ size.bits = v % 2 ^ size.bits := by
  cases s with
  | Unsigned => exact Int.emod_emod_of_dvd v dvd_rfl
  | Signed =>
    simp only [Int.modulo]
    set w := size.bits
    set h : Int := 2 ^ (w - 1)
    set n : Int := 2 ^ w
    have h1 : (v + h) % n % n = (v + h) % n := Int.emod_emod_of_dvd _ dvd_rfl
    calc ((v + h) % n - h) % n = ((v + h) % n % n - h % n) % n := by rw [Int.sub_emod]
      _ = ((v + h) % n - h % n) % n := by rw [h1]
      _ = ((v + h) - h) % n := by rw [← Int.sub_emod]
      _ = v % n := by ring_nf

theorem int_type_span (t : IntType) (hb : 0 < t.size.bytes) :
    int_type_max t - int_type_min t = 2 ^ t.size.bits - 1 := by
  obtain ⟨s, ⟨nb⟩⟩ := t
  have hb' : 0 < nb := hb
  have hw1 : 1 ≤ Size.bits ⟨nb⟩ := by simp [Size.bits]; omega
  cases s with
  | Unsigned => simp [int_type_min, int_type_max, unsigned_int_max]
  | Signed =>
    simp only [int_type_min, int_type_max, signed_int_min, signed_int_max]
    set w := Size.bits ⟨nb⟩
    have h2w : (2:Int) ^ w = 2 * 2 ^ (w - 1) := by
      conv_lhs => rw [show w = (w - 1) + 1 from by omega]
      rw [pow_succ]; ring
    linarith

theorem niche_tag_inj (tty : IntType) (nvs ns : Nat) (v1 v2 : Nat)
    (h : niche_tag tty nvs ns v1 = niche_tag tty nvs ns v2) :
    int_from_bits v1 tty = int_from_bits v2 tty := by
  by_cases hb : 0 < tty.size.bytes
  case neg =>
    have h0 : tty.size.bits = 0 := by unfold Size.bits; omega
    rw [int_from_bits_width_zero _ _ h0, int_from_bits_width_zero _ _ h0]
  case pos =>
    set d1 := int_from_bits v1 tty with hd1
    set d2 := int_from_bits v2 tty with hd2
    set c : Int := (ns : Int) - (nvs : Int)
    have hmod : (d1 + c) % 2 ^ tty.size.bits = (d2 + c) % 2 ^ tty.size.bits := by
      have e1 := modulo_emod (d1 - (nvs:Int) + (ns:Int)) tty.signed tty.size
      have e2 := modulo_emod (d2 - (nvs:Int) + (ns:Int)) tty.signed tty.size
      have := congrArg (fun x => x % (2:Int) ^ tty.size.bits) h
      simp only [niche_tag] at this
      rw [← hd1, ← hd2] at this
      rw [e1, e2] at this
      have a1 : d1 - (nvs:Int) + (ns:Int) = d1 + c := by ring
      have a2 : d2 - (nvs:Int) + (ns:Int) = d2 + c := by ring
      rw [a1, a2] at this
      exact this
    have hdvd : (2:Int) ^ tty.size.bits ∣ (d2 + c) - (d1 + c) := Int.ModEq.dvd hmod
    have hdvd' : (2:Int) ^ tty.size.bits ∣ d2 - d1 := by
      have : (d2 + c) - (d1 + c) = d2 - d1 := by ring
      rwa [this] at hdvd
    have r1 := int_from_bits_range v1 tty
    have r2 := int_from_bits_range v2 tty
    have hspan := int_type_span tty hb
    have habs : |d2 - d1| < 2 ^ tty.size.bits := by
      rw [abs_lt]
      constructor <;> [skip; skip] <;> rw [← hd1] at r1 <;> rw [← hd2] at r2 <;> linarith
    have := Int.eq_zero_of_abs_lt_dvd hdvd' habs
    linarith

theorem int_from_bits_to_bits (t : IntType) (hb : 0 < t.size.bytes) (v : Int)
    (hmin : int_type_min t ≤ v) (hmax : v ≤ int_type_max t) :
    int_from_bits (to_bits v t) t = v := by
  obtain ⟨s, ⟨nb⟩⟩ := t
  have hb' : 0 < nb := hb
  set w := Size.bits ⟨nb⟩ with hwd
  have hw1 : 1 ≤ w := by simp [hwd, Size.bits]; omega
  have hNpos : (0:Int) < 2 ^ w := by positivity
  have h2w : (2:Int) ^ w = 2 * 2 ^ (w - 1) := by
    conv_lhs => rw [show w = (w - 1) + 1 from by omega]
    rw [pow_succ]; ring
  have hcastN : (((2 ^ w : Nat) : Int)) = 2 ^ w := by push_cast; ring
  cases s with
  | Unsigned =>
    simp only [int_type_min, int_type_max, unsigned_int_max] at hmin hmax
    have hvlt : v < 2 ^ w := by linarith
    have hv : v.emod (2 ^ w) = v := Int.emod_eq_of_lt hmin hvlt
    simp only [to_bits, int_from_bits, hv]
    have htn : ((v.toNat : Int)) = v := Int.toNat_of_nonneg hmin
    have hlt : v.toNat < 2 ^ w := by
      have : ((v.toNat : Int)) < ((2 ^ w : Nat) : Int) := by rw [htn, hcastN]; exact hvlt
      exact_mod_cast this
    rw [Nat.mod_eq_of_lt hlt]
    exact htn
  | Signed =>
    simp only [int_type_min, int_type_max, signed_int_min, signed_int_max] at hmin hmax
    by_cases hv0 : 0 ≤ v
    · have hvlt : v < 2 ^ w := by linarith
      have hv : v.emod (2 ^ w) = v := Int.emod_eq_of_lt hv0 hvlt
      simp only [to_bits, int_from_bits, hv]
      have htn : ((v.toNat : Int)) = v := Int.toNat_of_nonneg hv0
      have hltn : v.toNat < 2 ^ w := by
        have : ((v.toNat : Int)) < ((2 ^ w : Nat) : Int) := by rw [htn, hcastN]; exact hvlt
        exact_mod_cast this
      have hlt1 : v.toNat < 2 ^ (w - 1) := by
        have hc : ((v.toNat : Int)) < ((2 ^ (w-1) : Nat) : Int) := by
          rw [htn]
          push_cast
          linarith
        exact_mod_cast hc
      rw [Nat.mod_eq_of_lt hltn]
      simp only [hlt1, if_true]
      exact htn
    · push_neg at hv0
      have hv : v.emod (2 ^ w) = v + 2 ^ w := by
        have h1 : (v + 2 ^ w).emod (2 ^ w) = v.emod (2 ^ w) := by
          have h := Int.add_mul_emod_self_left (a := v) (b := (2:Int) ^ w) (c := 1)
          rw [mul_one] at h
          exact h
        have h2 : (v + 2 ^ w).emod (2 ^ w) = v + 2 ^ w := by
          apply Int.emod_eq_of_lt
          · linarith
          · linarith
        rw [← h1, h2]
      simp only [to_bits, int_from_bits, hv]
      have hnn : (0:Int) ≤ v + 2 ^ w := by linarith
      have htn : (((v + 2 ^ w).toNat : Int)) = v + 2 ^ w := Int.toNat_of_nonneg hnn
      have hltn : (v + 2 ^ w).toNat < 2 ^ w := by
        have : (((v + 2 ^ w).toNat : Int)) < ((2 ^ w : Nat) : Int) := by
          rw [htn, hcastN]; linarith
        exact_mod_cast this
      have hge1 : ¬ ((v + 2 ^ w).toNat < 2 ^ (w - 1)) := by
        intro hcon
        have : (((v + 2 ^ w).toNat : Int)) < ((2 ^ (w-1) : Nat) : Int) := by exact_mod_cast hcon
        rw [htn] at this
        push_cast at this
        linarith
      rw [Nat.mod_eq_of_lt hltn]
      simp only [hge1, if_false]
      rw [htn]
      ring

/-! ## Shape of the `Variants::Multiple` translation -/

/-- The `(translated_variants, discriminator_branches)` accumulator after
the variant loop of `translate_enum`. -/
def transAcc (sz : Size) (al : Align) (dty tty : IntType) (off : Offset)
    (enc : TagEncoding) (vars : List VariantInfo) :
    List (Int × Variant) × List ((Int × Int) × Discriminator) :=
  vars.enum.foldl (translate_variant_step sz al dty tty off enc) ([], [])

/-- The final branch children of the translated discriminator. -/
def transChildren (sz : Size) (al : Align) (dty tty : IntType)
    (vstart vend : Nat) (enc : TagEncoding) (off : Offset)
    (vars : List VariantInfo) : List ((Int × Int) × Discriminator) :=
  match enc with
  | .Direct => (transAcc sz al dty tty off enc vars).2
  | .Niche _ _ _ =>
      add_niche_invalids tty vstart vend (transAcc sz al dty tty off enc vars).2

/-- The final branch fallback of the translated discriminator. -/
def transFallback (enc : TagEncoding) : Discriminator :=
  match enc with
  | .Direct => Discriminator.Invalid
  | .Niche untagged _ _ => Discriminator.Known (untagged : Int)

theorem translate_enum_multiple_eq (sz : Size) (al : Align) (dty tty : IntType)
    (vstart vend : Nat) (enc : TagEncoding) (off : Offset)
    (vars : List VariantInfo) :
    translate_enum (mkMultipleInput sz al dty tty vstart vend enc off vars) =
      some (Ty.enumT (transAcc sz al dty tty off enc vars).1
        (Discriminator.Branch off tty
          (transChildren sz al dty tty vstart vend enc off vars)
          (transFallback enc))
        dty sz al) := by
  cases enc <;> rfl

/-- The map key under which `translate_variant_step` stores a given
variant: the logical-width discriminant for direct tagging and for the
untagged niche variant, the tag-width discriminant for tagged niche
variants. -/
def stepKey (dty tty : IntType) (enc : TagEncoding) (q : Nat × VariantInfo) : Int :=
  match enc with
  | .Direct => int_from_bits q.2.discr_val dty
  | .Niche untagged _ _ =>
      if untagged ≠ q.1 then int_from_bits q.2.discr_val tty
      else int_from_bits q.2.discr_val dty

/-- The tagger `translate_variant_step` gives a variant. -/
def stepTagger (dty tty : IntType) (off : Offset) (enc : TagEncoding)
    (q : Nat × VariantInfo) : List (Offset × (IntType × Int)) :=
  match enc with
  | .Direct => [(off, (tty, int_from_bits q.2.discr_val dty))]
  | .Niche untagged nvs ns =>
      if untagged ≠ q.1 then [(off, (tty, niche_tag tty nvs ns q.2.discr_val))]
      else []

theorem translate_variant_step_eq (sz : Size) (al : Align) (dty tty : IntType)
    (off : Offset) (enc : TagEncoding)
    (acc : List (Int × Variant) × List ((Int × Int) × Discriminator))
    (q : Nat × VariantInfo) :
    translate_variant_step sz al dty tty off enc acc q =
      (mapInsert acc.1 (stepKey dty tty enc q)
        (Variant.mk (Ty.tuple q.2.fields sz al) (stepTagger dty tty off enc q)),
       match enc with
       | .Direct => mapInsert acc.2
           (int_from_bits q.2.discr_val dty, int_from_bits q.2.discr_val dty)
           (Discriminator.Known (int_from_bits q.2.discr_val dty))
       | .Niche untagged nvs ns =>
           if untagged ≠ q.1 then
             mapInsert acc.2
               (niche_tag tty nvs ns q.2.discr_val, niche_tag tty nvs ns q.2.discr_val)
               (Discriminator.Known (int_from_bits q.2.discr_val tty))
           else acc.2) := by
  cases enc with
  | Direct => rfl
  | Niche untagged nvs ns =>
    by_cases h : untagged ≠ q.1
    · simp only [translate_variant_step, stepKey, stepTagger, niche_tag, if_pos h]
    · simp only [translate_variant_step, stepKey, stepTagger, niche_tag, if_neg h]

/-! ## Fold invariants -/

theorem transAcc_variant_mem (sz : Size) (al : Align) (dty tty : IntType)
    (off : Offset) (enc : TagEncoding) (vars : List VariantInfo)
    (p : Nat × VariantInfo) (hp : p ∈ vars.enum)
    (hinj : ∀ q ∈ vars.enum, stepKey dty tty enc q = stepKey dty tty enc p → q = p) :
    mapGet (transAcc sz al dty tty off enc vars).1 (stepKey dty tty enc p) =
      some (Variant.mk (Ty.tuple p.2.fields sz al) (stepTagger dty tty off enc p)) := by
  unfold transAcc
  apply foldl_mem_invariant
    (P := fun acc => mapGet acc.1 (stepKey dty tty enc p) =
      some (Variant.mk (Ty.tuple p.2.fields sz al) (stepTagger dty tty off enc p)))
    (f := translate_variant_step sz al dty tty off enc) (a := p)
  · intro b
    rw [translate_variant_step_eq]
    exact mapGet_mapInsert_self _ _ _
  · exact hp
  · intro b q hq hb
    rcases Classical.em (q = p) with rfl | hne
    · rw [translate_variant_step_eq]
      exact mapGet_mapInsert_self _ _ _
    · rw [translate_variant_step_eq]
      have hkne : stepKey dty tty enc p ≠ stepKey dty tty enc q :=
        fun he => hne (hinj q hq he.symm)
      simp only
      rw [mapGet_mapInsert_ne _ _ _ _ hkne]
      exact hb

theorem transAcc_children_direct_mem (sz : Size) (al : Align) (dty tty : IntType)
    (off : Offset) (vars : List VariantInfo)
    (p : Nat × VariantInfo) (hp : p ∈ vars.enum) :
    mapGet (transAcc sz al dty tty off TagEncoding.Direct vars).2
        (int_from_bits p.2.discr_val dty, int_from_bits p.2.discr_val dty) =
      some (Discriminator.Known (int_from_bits p.2.discr_val dty)) := by
  unfold transAcc
  apply foldl_mem_invariant
    (P := fun acc => mapGet acc.2
        (int_from_bits p.2.discr_val dty, int_from_bits p.2.discr_val dty) =
      some (Discriminator.Known (int_from_bits p.2.discr_val dty)))
    (f := translate_variant_step sz al dty tty off TagEncoding.Direct) (a := p)
  · intro b
    rw [translate_variant_step_eq]
    exact mapGet_mapInsert_self _ _ _
  · exact hp
  · intro b q hq hb
    rw [translate_variant_step_eq]
    simp only
    rcases Classical.em ((int_from_bits q.2.discr_val dty, int_from_bits q.2.discr_val dty)
        = ((int_from_bits p.2.discr_val dty, int_from_bits p.2.discr_val dty)
            : Int × Int)) with heq | hne
    · have hd : int_from_bits q.2.discr_val dty = int_from_bits p.2.discr_val dty :=
        congrArg Prod.fst heq
      rw [hd, mapGet_mapInsert_self]
    · rw [mapGet_mapInsert_ne _ _ _ _ (fun he => hne he.symm)]
      exact hb

theorem transAcc_children_niche_mem (sz : Size) (al : Align) (dty tty : IntType)
    (off : Offset) (u nvs ns : Nat) (vars : List VariantInfo)
    (p : Nat × VariantInfo) (hp : p ∈ vars.enum) (hpu : u ≠ p.1)
    (hinj : ∀ q1 ∈ vars.enum, ∀ q2 ∈ vars.enum,
      stepKey dty tty (TagEncoding.Niche u nvs ns) q1 =
        stepKey dty tty (TagEncoding.Niche u nvs ns) q2 → q1 = q2) :
    mapGet (transAcc sz al dty tty off (TagEncoding.Niche u nvs ns) vars).2
        (niche_tag tty nvs ns p.2.discr_val, niche_tag tty nvs ns p.2.discr_val) =
      some (Discriminator.Known (int_from_bits p.2.discr_val tty)) := by
  unfold transAcc
  apply foldl_mem_invariant
    (P := fun acc => mapGet acc.2
        (niche_tag tty nvs ns p.2.discr_val, niche_tag tty nvs ns p.2.discr_val) =
      some (Discriminator.Known (int_from_bits p.2.discr_val tty)))
    (f := translate_variant_step sz al dty tty off (TagEncoding.Niche u nvs ns)) (a := p)
  · intro b
    rw [translate_variant_step_eq]
    simp only [if_pos hpu]
    exact mapGet_mapInsert_self _ _ _
  · exact hp
  · intro b q hq hb
    rw [translate_variant_step_eq]
    by_cases hqu : u ≠ q.1
    · simp only [if_pos hqu]
      rcases Classical.em (q = p) with rfl | hne
      · exact mapGet_mapInsert_self _ _ _
      · have htne : (niche_tag tty nvs ns p.2.discr_val, niche_tag tty nvs ns p.2.discr_val)
            ≠ ((niche_tag tty nvs ns q.2.discr_val, niche_tag tty nvs ns q.2.discr_val)
                : Int × Int) := by
          intro he
          have ht : niche_tag tty nvs ns q.2.discr_val = niche_tag tty nvs ns p.2.discr_val :=
            (congrArg Prod.fst he).symm
          have hd := niche_tag_inj tty nvs ns q.2.discr_val p.2.discr_val ht
          have hk : stepKey dty tty (TagEncoding.Niche u nvs ns) q =
              stepKey dty tty (TagEncoding.Niche u nvs ns) p := by
            simp only [stepKey, if_pos hqu, if_pos hpu]
            exact hd
          exact hne (hinj q hq p hp hk)
        rw [mapGet_mapInsert_ne _ _ _ _ htne]
        exact hb
    · simp only [if_neg hqu]
      exact hb

theorem transAcc_children_classify_niche (sz : Size) (al : Align)
    (dty tty : IntType) (off : Offset) (u nvs ns : Nat)
    (vars : List VariantInfo) :
    ∀ e ∈ (transAcc sz al dty tty off (TagEncoding.Niche u nvs ns) vars).2,
      ∃ q, q ∈ vars.enum ∧ u ≠ q.1 ∧
        e = ((niche_tag tty nvs ns q.2.discr_val, niche_tag tty nvs ns q.2.discr_val),
             Discriminator.Known (int_from_bits q.2.discr_val tty)) := by
  unfold transAcc
  refine foldl_invariant
    (fun acc => ∀ e ∈ acc.2, ∃ q, q ∈ vars.enum ∧ u ≠ q.1 ∧
      e = ((niche_tag tty nvs ns q.2.discr_val, niche_tag tty nvs ns q.2.discr_val),
           Discriminator.Known (int_from_bits q.2.discr_val tty)))
    (translate_variant_step sz al dty tty off (TagEncoding.Niche u nvs ns))
    vars.enum ([], []) ?_ ?_
  · intro e he; cases he
  · intro b q hq hb
    rw [translate_variant_step_eq]
    by_cases hqu : u ≠ q.1
    · simp only [if_pos hqu]
      intro e he
      rcases mem_mapInsert.mp he with rfl | ⟨he2, _⟩
      · exact ⟨q, hq, hqu, rfl⟩
      · exact hb e he2
    · simp only [if_neg hqu]
      exact hb

theorem transAcc_children_known (sz : Size) (al : Align) (dty tty : IntType)
    (off : Offset) (enc : TagEncoding) (vars : List VariantInfo) :
    ∀ e ∈ (transAcc sz al dty tty off enc vars).2,
      ∃ d, e.2 = Discriminator.Known d := by
  unfold transAcc
  refine foldl_invariant
    (fun acc => ∀ e ∈ acc.2, ∃ d, e.2 = Discriminator.Known d)
    (translate_variant_step sz al dty tty off enc) vars.enum ([], []) ?_ ?_
  · intro e he; cases he
  · intro b q hq hb
    rw [translate_variant_step_eq]
    cases enc with
    | Direct =>
      intro e he
      rcases mem_mapInsert.mp he with rfl | ⟨he2, _⟩
      · exact ⟨_, rfl⟩
      · exact hb e he2
    | Niche u nvs ns =>
      by_cases hqu : u ≠ q.1
      · simp only [if_pos hqu]
        intro e he
        rcases mem_mapInsert.mp he with rfl | ⟨he2, _⟩
        · exact ⟨_, rfl⟩
        · exact hb e he2
      · simp only [if_neg hqu]
        exact hb

theorem transAcc_nodup (sz : Size) (al : Align) (dty tty : IntType)
    (off : Offset) (enc : TagEncoding) (vars : List VariantInfo) :
    nodupKeys (transAcc sz al dty tty off enc vars).1 ∧
    nodupKeys (transAcc sz al dty tty off enc vars).2 := by
  unfold transAcc
  refine foldl_invariant
    (fun acc => nodupKeys acc.1 ∧ nodupKeys acc.2)
    (translate_variant_step sz al dty tty off enc) vars.enum ([], []) ?_ ?_
  · exact ⟨nodupKeys_nil, nodupKeys_nil⟩
  · intro b q hq hb
    rw [translate_variant_step_eq]
    cases enc with
    | Direct => exact ⟨nodupKeys_mapInsert hb.1 _ _, nodupKeys_mapInsert hb.2 _ _⟩
    | Niche u nvs ns =>
      by_cases hqu : u ≠ q.1
      · simp only [if_pos hqu]
        exact ⟨nodupKeys_mapInsert hb.1 _ _, nodupKeys_mapInsert hb.2 _ _⟩
      · simp only [if_neg hqu]
        exact ⟨nodupKeys_mapInsert hb.1 _ _, hb.2⟩

theorem transAcc_known_has_variant (sz : Size) (al : Align) (dty tty : IntType)
    (off : Offset) (enc : TagEncoding) (vars : List VariantInfo) :
    ∀ e ∈ (transAcc sz al dty tty off enc vars).2, ∀ dv : Int,
      e.2 = Discriminator.Known dv →
      mapGet (transAcc sz al dty tty off enc vars).1 dv ≠ none := by
  unfold transAcc
  refine foldl_invariant
    (fun acc => ∀ e ∈ acc.2, ∀ dv : Int, e.2 = Discriminator.Known dv →
      mapGet acc.1 dv ≠ none)
    (translate_variant_step sz al dty tty off enc) vars.enum ([], []) ?_ ?_
  · intro e he; cases he
  · intro b q hq hb
    rw [translate_variant_step_eq]
    cases enc with
    | Direct =>
      intro e he dv hdv
      rcases mem_mapInsert.mp he with rfl | ⟨he2, _⟩
      · cases hdv
        simp only [stepKey]
        rw [mapGet_mapInsert_self]
        simp
      · exact mapGet_ne_none_mapInsert _ _ (hb e he2 dv hdv)
    | Niche u nvs ns =>
      by_cases hqu : u ≠ q.1
      · simp only [if_pos hqu]
        intro e he dv hdv
        rcases mem_mapInsert.mp he with rfl | ⟨he2, _⟩
        · cases hdv
          have : stepKey dty tty (TagEncoding.Niche u nvs ns) q =
              int_from_bits q.2.discr_val tty := by
            simp [stepKey, if_pos hqu]
          rw [← this, mapGet_mapInsert_self]
          simp
        · exact mapGet_ne_none_mapInsert _ _ (hb e he2 dv hdv)
      · simp only [if_neg hqu]
        intro e he dv hdv
        exact mapGet_ne_none_mapInsert _ _ (hb e he dv hdv)

theorem transAcc_variant_ne_none (sz : Size) (al : Align) (dty tty : IntType)
    (off : Offset) (enc : TagEncoding) (vars : List VariantInfo)
    (p : Nat × VariantInfo) (hp : p ∈ vars.enum) :
    mapGet (transAcc sz al dty tty off enc vars).1 (stepKey dty tty enc p) ≠ none := by
  unfold transAcc
  apply foldl_mem_invariant
    (P := fun acc => mapGet acc.1 (stepKey dty tty enc p) ≠ none)
    (f := translate_variant_step sz al dty tty off enc) (a := p)
  · intro b
    rw [translate_variant_step_eq]
    rw [mapGet_mapInsert_self]
    simp
  · exact hp
  · intro b q hq hb
    rw [translate_variant_step_eq]
    exact mapGet_ne_none_mapInsert _ _ hb

/-! ## Lemmas about `add_niche_invalids` -/

theorem mem_add_niche_invalids {tty : IntType} {vs ve : Nat}
    {db : List ((Int × Int) × Discriminator)} {e : (Int × Int) × Discriminator}
    (he : e ∈ add_niche_invalids tty vs ve db) :
    e ∈ db ∨ (e.2 = Discriminator.Invalid ∧
      invalidKeyOk (int_from_bits vs tty) (int_from_bits ve tty)
        (int_type_min tty) (int_type_max tty) e.1) := by
  simp only [add_niche_invalids] at he
  set rstart := int_from_bits vs tty with hrs
  set rend := int_from_bits ve tty with hre
  set dmin := int_type_min tty with hdm
  set dmax := int_type_max tty with hdx
  by_cases h1 : rstart ≤ rend
  · rw [if_pos h1] at he
    by_cases h3 : dmin < rstart
    · rw [if_pos h3] at he
      rcases mem_mapInsert.mp he with rfl | ⟨he2, _⟩
      · exact Or.inr ⟨rfl, Or.inl ⟨h1, Or.inr ⟨h3, rfl⟩⟩⟩
      · by_cases h2 : rend < dmax
        · rw [if_pos h2] at he2
          rcases mem_mapInsert.mp he2 with rfl | ⟨he3, _⟩
          · exact Or.inr ⟨rfl, Or.inl ⟨h1, Or.inl ⟨h2, rfl⟩⟩⟩
          · exact Or.inl he3
        · rw [if_neg h2] at he2
          exact Or.inl he2
    · rw [if_neg h3] at he
      by_cases h2 : rend < dmax
      · rw [if_pos h2] at he
        rcases mem_mapInsert.mp he with rfl | ⟨he3, _⟩
        · exact Or.inr ⟨rfl, Or.inl ⟨h1, Or.inl ⟨h2, rfl⟩⟩⟩
        · exact Or.inl he3
      · rw [if_neg h2] at he
        exact Or.inl he
  · rw [if_neg h1] at he
    by_cases h4 : rend + 1 < rstart
    · rw [if_pos h4] at he
      rcases mem_mapInsert.mp he with rfl | ⟨he2, _⟩
      · exact Or.inr ⟨rfl, Or.inr ⟨h4, rfl⟩⟩
      · exact Or.inl he2
    · rw [if_neg h4] at he
      exact Or.inl he

theorem nodupKeys_add_niche_invalids {tty : IntType} {vs ve : Nat}
    {db : List ((Int × Int) × Discriminator)} (h : nodupKeys db) :
    nodupKeys (add_niche_invalids tty vs ve db) := by
  simp only [add_niche_invalids]
  by_cases h1 : int_from_bits vs tty ≤ int_from_bits ve tty
  · rw [if_pos h1]
    by_cases h3 : int_type_min tty < int_from_bits vs tty
    · rw [if_pos h3]
      by_cases h2 : int_from_bits ve tty < int_type_max tty
      · rw [if_pos h2]
        exact nodupKeys_mapInsert (nodupKeys_mapInsert h _ _) _ _
      · rw [if_neg h2]
        exact nodupKeys_mapInsert h _ _
    · rw [if_neg h3]
      by_cases h2 : int_from_bits ve tty < int_type_max tty
      · rw [if_pos h2]
        exact nodupKeys_mapInsert h _ _
      · rw [if_neg h2]
        exact h
  · rw [if_neg h1]
    by_cases h4 : int_from_bits ve tty + 1 < int_from_bits vs tty
    · rw [if_pos h4]
      exact nodupKeys_mapInsert h _ _
    · rw [if_neg h4]
      exact h

theorem mapGet_add_niche_invalids_valid {tty : IntType} {vs ve : Nat}
    {db : List ((Int × Int) × Discriminator)} {t : Int}
    (hv : validTag (int_from_bits vs tty) (int_from_bits ve tty) t) :
    mapGet (add_niche_invalids tty vs ve db) (t, t) = mapGet db (t, t) := by
  simp only [add_niche_invalids]
  set rstart := int_from_bits vs tty with hrs
  set rend := int_from_bits ve tty with hre
  unfold validTag at hv
  by_cases h1 : rstart ≤ rend
  · rw [if_pos h1]
    have step2 : ∀ db' : List ((Int × Int) × Discriminator),
        mapGet (if rend < int_type_max tty then
          mapInsert db' (rend + 1, int_type_max tty) Discriminator.Invalid else db') (t, t)
        = mapGet db' (t, t) := by
      intro db'
      by_cases h2 : rend < int_type_max tty
      · rw [if_pos h2]
        rw [mapGet_mapInsert_ne]
        intro he
        have h1' : t = rend + 1 := congrArg Prod.fst he
        omega
      · rw [if_neg h2]
    by_cases h3 : int_type_min tty < rstart
    · rw [if_pos h3]
      rw [mapGet_mapInsert_ne]
      · exact step2 db
      · intro he
        have h2' : t = rstart - 1 := congrArg Prod.snd he
        omega
    · rw [if_neg h3]
      exact step2 db
  · rw [if_neg h1]
    by_cases h4 : rend + 1 < rstart
    · rw [if_pos h4]
      rw [mapGet_mapInsert_ne]
      intro he
      have ha : t = rend + 1 := congrArg Prod.fst he
      have hb : t = rstart - 1 := congrArg Prod.snd he
      omega
    · rw [if_neg h4]

theorem mapGet_add_niche_invalids_high {tty : IntType} {vs ve : Nat}
    {db : List ((Int × Int) × Discriminator)}
    (h1 : int_from_bits vs tty ≤ int_from_bits ve tty)
    (h2 : int_from_bits ve tty < int_type_max tty) :
    mapGet (add_niche_invalids tty vs ve db)
        (int_from_bits ve tty + 1, int_type_max tty) = some Discriminator.Invalid := by
  simp only [add_niche_invalids]
  rw [if_pos h1, if_pos h2]
  have hr := (int_from_bits_range vs tty).2
  by_cases h3 : int_type_min tty < int_from_bits vs tty
  · rw [if_pos h3]
    rw [mapGet_mapInsert_ne]
    · exact mapGet_mapInsert_self _ _ _
    · intro he
      have hb : int_type_max tty = int_from_bits vs tty - 1 := congrArg Prod.snd he
      omega
  · rw [if_neg h3]
    exact mapGet_mapInsert_self _ _ _

theorem mapGet_add_niche_invalids_low {tty : IntType} {vs ve : Nat}
    {db : List ((Int × Int) × Discriminator)}
    (h1 : int_from_bits vs tty ≤ int_from_bits ve tty)
    (h3 : int_type_min tty < int_from_bits vs tty) :
    mapGet (add_niche_invalids tty vs ve db)
        (int_type_min tty, int_from_bits vs tty - 1) = some Discriminator.Invalid := by
  simp only [add_niche_invalids]
  rw [if_pos h1, if_pos h3]
  exact mapGet_mapInsert_self _ _ _

theorem mapGet_add_niche_invalids_wrap {tty : IntType} {vs ve : Nat}
    {db : List ((Int × Int) × Discriminator)}
    (h1 : ¬ int_from_bits vs tty ≤ int_from_bits ve tty)
    (h4 : int_from_bits ve tty + 1 < int_from_bits vs tty) :
    mapGet (add_niche_invalids tty vs ve db)
        (int_from_bits ve tty + 1, int_from_bits vs tty - 1) =
      some Discriminator.Invalid := by
  simp only [add_niche_invalids]
  rw [if_neg h1, if_pos h4]
  exact mapGet_mapInsert_self _ _ _

theorem add_niche_invalids_nogap {tty : IntType} {vs ve : Nat}
    {db : List ((Int × Int) × Discriminator)}
    (h1 : ¬ int_from_bits vs tty ≤ int_from_bits ve tty)
    (h4 : ¬ int_from_bits ve tty + 1 < int_from_bits vs tty) :
    add_niche_invalids tty vs ve db = db := by
  simp only [add_niche_invalids]
  rw [if_neg h1, if_neg h4]

theorem invalidKeyOk_not_validTag {rstart rend dmin dmax : Int} {k : Int × Int}
    (hk : invalidKeyOk rstart rend dmin dmax k) :
    ∀ x : Int, k.1 ≤ x → x ≤ k.2 → ¬ validTag rstart rend x := by
  obtain ⟨k1, k2⟩ := k
  simp only [invalidKeyOk, Prod.mk.injEq] at hk
  intro x hx1 hx2
  unfold validTag
  omega

theorem invalidKeyOk_disjoint {rstart rend dmin dmax : Int} {k1 k2 : Int × Int}
    (h1 : invalidKeyOk rstart rend dmin dmax k1)
    (h2 : invalidKeyOk rstart rend dmin dmax k2) (hne : k1 ≠ k2) :
    k1.2 < k2.1 ∨ k2.2 < k1.1 := by
  obtain ⟨a, b⟩ := k1
  obtain ⟨c, d⟩ := k2
  simp only [invalidKeyOk, Prod.mk.injEq] at h1 h2
  simp only [ne_eq, Prod.mk.injEq, not_and] at hne
  simp only
  omega

/-! ## Non-overlap and unique resolution -/

theorem children_disjoint_of_classify {children : List ((Int × Int) × Discriminator)}
    (T : Int → Prop) (IK : Int × Int → Prop)
    (hik_avoid : ∀ k, IK k → ∀ x : Int, k.1 ≤ x → x ≤ k.2 → ¬ T x)
    (hik_disj : ∀ k1 k2, IK k1 → IK k2 → k1 ≠ k2 → k1.2 < k2.1 ∨ k2.2 < k1.1)
    (hcl : ∀ e ∈ children,
      (∃ t d, e = ((t, t), Discriminator.Known d) ∧ T t) ∨ IK e.1) :
    pairwiseDisjointChildren children := by
  intro e1 h1 e2 h2 hne
  rcases hcl e1 h1 with ⟨t1, d1, rfl, hv1⟩ | hk1
  · rcases hcl e2 h2 with ⟨t2, d2, rfl, hv2⟩ | hk2
    · simp only [ne_eq, Prod.mk.injEq, not_and] at hne
      simp only
      omega
    · by_contra hcon
      push_neg at hcon
      dsimp only at hcon
      exact hik_avoid e2.1 hk2 t1 (by omega) (by omega) hv1
  · rcases hcl e2 h2 with ⟨t2, d2, rfl, hv2⟩ | hk2
    · by_contra hcon
      push_neg at hcon
      dsimp only at hcon
      exact hik_avoid e1.1 hk1 t2 (by omega) (by omega) hv2
    · exact hik_disj e1.1 e2.1 hk1 hk2 hne

theorem resolvesTo_unique (children : List ((Int × Int) × Discriminator))
    (fb : Discriminator) (hnd : nodupKeys children)
    (hdisj : pairwiseDisjointChildren children) (v : Int) :
    ∃! d, resolvesTo children fb v d := by
  by_cases h : ∃ e ∈ children, e.1.1 ≤ v ∧ v ≤ e.1.2
  · obtain ⟨e, he, h1, h2⟩ := h
    refine ⟨e.2, Or.inl ⟨e, he, h1, h2, rfl⟩, ?_⟩
    intro d hd
    rcases hd with ⟨e', he', h1', h2', rfl⟩ | ⟨hall, rfl⟩
    · rcases Classical.em (e'.1 = e.1) with hk | hk
      · have hm1 : (e.1, e'.2) ∈ children := by rw [← hk]; exact he'
        have hm2 : (e.1, e.2) ∈ children := he
        exact nodupKeys_val_eq hnd hm1 hm2
      · rcases hdisj e' he' e he hk with hlt | hlt <;> omega
    · exact absurd ⟨h1, h2⟩ (hall e he)
  · refine ⟨fb, Or.inr ⟨fun e he hc => h ⟨e, he, hc⟩, rfl⟩, ?_⟩
    intro d hd
    rcases hd with ⟨e', he', h1', h2', rfl⟩ | ⟨_, rfl⟩
    · exact absurd ⟨e', he', h1', h2'⟩ h
    · rfl

theorem transAcc_children_classify_direct (sz : Size) (al : Align)
    (dty tty : IntType) (off : Offset) (vars : List VariantInfo) :
    ∀ e ∈ (transAcc sz al dty tty off TagEncoding.Direct vars).2,
      ∃ d, e = ((d, d), Discriminator.Known d) := by
  unfold transAcc
  refine foldl_invariant
    (fun acc => ∀ e ∈ acc.2, ∃ d, e = ((d, d), Discriminator.Known d))
    (translate_variant_step sz al dty tty off TagEncoding.Direct)
    vars.enum ([], []) ?_ ?_
  · intro e he; cases he
  · intro b q hq hb
    rw [translate_variant_step_eq]
    intro e he
    rcases mem_mapInsert.mp he with rfl | ⟨he2, _⟩
    · exact ⟨_, rfl⟩
    · exact hb e he2

theorem transChildren_nodup (sz : Size) (al : Align) (dty tty : IntType)
    (vstart vend : Nat) (enc : TagEncoding) (off : Offset)
    (vars : List VariantInfo) :
    nodupKeys (transChildren sz al dty tty vstart vend enc off vars) := by
  cases enc with
  | Direct => exact (transAcc_nodup sz al dty tty off TagEncoding.Direct vars).2
  | Niche u nvs ns =>
    exact nodupKeys_add_niche_invalids
      (transAcc_nodup sz al dty tty off (TagEncoding.Niche u nvs ns) vars).2

theorem transChildren_classify_niche (sz : Size) (al : Align)
    (dty tty : IntType) (vstart vend : Nat) (u nvs ns : Nat) (off : Offset)
    (vars : List VariantInfo)
    (hvalid : ∀ q ∈ vars.enum, u ≠ q.1 →
      validTag (int_from_bits vstart tty) (int_from_bits vend tty)
        (niche_tag tty nvs ns q.2.discr_val)) :
    ∀ e ∈ transChildren sz al dty tty vstart vend (TagEncoding.Niche u nvs ns) off vars,
      (∃ t d, e = ((t, t), Discriminator.Known d) ∧
        validTag (int_from_bits vstart tty) (int_from_bits vend tty) t) ∨
      invalidKeyOk (int_from_bits vstart tty) (int_from_bits vend tty)
        (int_type_min tty) (int_type_max tty) e.1 := by
  intro e he
  unfold transChildren at he
  rcases mem_add_niche_invalids he with he2 | ⟨_, hik⟩
  · obtain ⟨q, hq, hqu, rfl⟩ := transAcc_children_classify_niche
      sz al dty tty off u nvs ns vars _ he2
    exact Or.inl ⟨_, _, rfl, hvalid q hq hqu⟩
  · exact Or.inr hik

theorem transChildren_disjoint_direct (sz : Size) (al : Align)
    (dty tty : IntType) (vstart vend : Nat) (off : Offset)
    (vars : List VariantInfo) :
    pairwiseDisjointChildren
      (transChildren sz al dty tty vstart vend TagEncoding.Direct off vars) := by
  refine children_disjoint_of_classify (fun _ => True) (fun _ => False)
    (fun k hk => hk.elim) (fun k1 k2 hk1 => hk1.elim) ?_
  intro e he
  obtain ⟨d, rfl⟩ := transAcc_children_classify_direct sz al dty tty off vars e he
  exact Or.inl ⟨d, d, rfl, trivial⟩

theorem transChildren_disjoint_niche (sz : Size) (al : Align)
    (dty tty : IntType) (vstart vend : Nat) (u nvs ns : Nat) (off : Offset)
    (vars : List VariantInfo)
    (hvalid : ∀ q ∈ vars.enum, u ≠ q.1 →
      validTag (int_from_bits vstart tty) (int_from_bits vend tty)
        (niche_tag tty nvs ns q.2.discr_val)) :
    pairwiseDisjointChildren
      (transChildren sz al dty tty vstart vend (TagEncoding.Niche u nvs ns) off vars) := by
  refine children_disjoint_of_classify
    (validTag (int_from_bits vstart tty) (int_from_bits vend tty))
    (invalidKeyOk (int_from_bits vstart tty) (int_from_bits vend tty)
      (int_type_min tty) (int_type_max tty))
    (fun k hk => invalidKeyOk_not_validTag hk)
    (fun k1 k2 hk1 hk2 => invalidKeyOk_disjoint hk1 hk2) ?_
  exact transChildren_classify_niche sz al dty tty vstart vend u nvs ns off vars hvalid

/-- A key-dependent variant-tagger fact for direct tagging that needs no
injectivity hypothesis: the variant stored under a discriminant key
always carries the direct tagger for that key. -/
theorem transAcc_variant_direct_tagger (sz : Size) (al : Align)
    (dty tty : IntType) (off : Offset) (vars : List VariantInfo)
    (p : Nat × VariantInfo) (hp : p ∈ vars.enum) :
    ∃ var, mapGet (transAcc sz al dty tty off TagEncoding.Direct vars).1
        (int_from_bits p.2.discr_val dty) = some var ∧
      var.tagger = [(off, (tty, int_from_bits p.2.discr_val dty))] := by
  have hstep : ∀ (b : List (Int × Variant) × List ((Int × Int) × Discriminator))
      (q : Nat × VariantInfo),
      translate_variant_step sz al dty tty off TagEncoding.Direct b q =
        (mapInsert b.1 (int_from_bits q.2.discr_val dty)
          (Variant.mk (Ty.tuple q.2.fields sz al)
            [(off, (tty, int_from_bits q.2.discr_val dty))]),
         mapInsert b.2 (int_from_bits q.2.discr_val dty, int_from_bits q.2.discr_val dty)
          (Discriminator.Known (int_from_bits q.2.discr_val dty))) :=
    fun b q => rfl
  unfold transAcc
  refine foldl_mem_invariant
    (fun acc => ∃ var, mapGet acc.1 (int_from_bits p.2.discr_val dty) = some var ∧
      var.tagger = [(off, (tty, int_from_bits p.2.discr_val dty))])
    (translate_variant_step sz al dty tty off TagEncoding.Direct) p ?_
    vars.enum hp ?_ ([], [])
  · intro b
    rw [hstep]
    exact ⟨_, mapGet_mapInsert_self _ _ _, rfl⟩
  · intro b q hq hb
    rw [hstep]
    rcases Classical.em (int_from_bits q.2.discr_val dty
        = int_from_bits p.2.discr_val dty) with he | hne
    · rw [he]
      exact ⟨_, mapGet_mapInsert_self _ _ _, rfl⟩
    · obtain ⟨var, hv, ht⟩ := hb
      exact ⟨var, by
        rw [mapGet_mapInsert_ne _ _ _ _ (fun hh => hne hh.symm)]
        exact hv, ht⟩

/-! ## Concrete fixtures -/

/-- The unsigned 8-bit integer type. -/
def u8 : IntType := ⟨Signedness.Unsigned, ⟨1⟩⟩

/-- The signed 8-bit integer type. -/
def i8 : IntType := ⟨Signedness.Signed, ⟨1⟩⟩

/-- Scenario B of the spec: direct tagging, three variants with
discriminants 0, 1, 2, unsigned 8-bit tag at offset 0. -/
def scenarioB : EnumInput :=
  mkMultipleInput ⟨1⟩ 1 u8 u8 0 2 TagEncoding.Direct ⟨0⟩
    [⟨0, []⟩, ⟨1, []⟩, ⟨2, []⟩]

/-- Scenario A of the spec: niche tagging with unsigned 8-bit tag; niche
variant index 0 with discriminant 0 mapped to tag value 10, untagged
variant index 1, tag valid range `[10, 10]`. -/
def scenarioA : EnumInput :=
  mkMultipleInput ⟨1⟩ 1 u8 u8 10 10 (TagEncoding.Niche 1 0 10) ⟨0⟩
    [⟨0, []⟩, ⟨1, []⟩]

/-- Scenario C of the spec: niche tagging with unsigned 8-bit tag and
wrapping valid range `start = 250`, `end = 5`. -/
def scenarioC : EnumInput :=
  mkMultipleInput ⟨1⟩ 1 u8 u8 250 5 (TagEncoding.Niche 1 0 250) ⟨0⟩
    [⟨0, []⟩, ⟨1, []⟩]

/-- Scenario D of the spec: niche tagging with adjacent wrapped valid
range `start = 100`, `end = 99` (no gap). -/
def scenarioD : EnumInput :=
  mkMultipleInput ⟨1⟩ 1 u8 u8 100 99 (TagEncoding.Niche 1 0 100) ⟨0⟩
    [⟨0, []⟩, ⟨1, []⟩]

/-! ## Claim C1 -/

/-- C1 (amended): for every enum translated with direct tag encoding and
every variant, with `d` the variant's discriminant interpreted at the
enum's logical discriminant type, `translate_enum` gives that variant a
tagger mapping `tag_offset` to the pair `(tag type, d)` — the stored
value is `d` itself, not `d` reinterpreted at the tag's integer width —
registers exactly one branch child covering `[d, d]` mapping to
`Known d`, and sets the branch fallback to `Invalid`; in particular, for
three variants with discriminants 0, 1, 2 and an unsigned 8-bit tag at
offset 0 (scenario B), the children are exactly the singletons `[0,0]`,
`[1,1]`, `[2,2]`, each `Known`, and reading tag value 5 resolves to
`Invalid`. -/
theorem claim1_direct_tagging (sz : Size) (al : Align) (dty tty : IntType)
    (vstart vend : Nat) (off : Offset) (vars : List VariantInfo)
    (p : Nat × VariantInfo) (hp : p ∈ vars.enum) :
    (∃ var, mapGet (enumVariantsOf (translate_enum
          (mkMultipleInput sz al dty tty vstart vend TagEncoding.Direct off vars)))
        (int_from_bits p.2.discr_val dty) = some var ∧
      var.tagger = [(off, (tty, int_from_bits p.2.discr_val dty))]) ∧
    mapGet (branchChildrenOf (discriminatorOf (translate_enum
          (mkMultipleInput sz al dty tty vstart vend TagEncoding.Direct off vars))))
        (int_from_bits p.2.discr_val dty, int_from_bits p.2.discr_val dty) =
      some (Discriminator.Known (int_from_bits p.2.discr_val dty)) ∧
    branchFallbackOf (discriminatorOf (translate_enum
        (mkMultipleInput sz al dty tty vstart vend TagEncoding.Direct off vars))) =
      Discriminator.Invalid ∧
    ((branchChildrenOf (discriminatorOf (translate_enum scenarioB))).map Prod.fst =
        [(2, 2), (1, 1), (0, 0)] ∧
      mapGet (branchChildrenOf (discriminatorOf (translate_enum scenarioB))) (0, 0) =
        some (Discriminator.Known 0) ∧
      mapGet (branchChildrenOf (discriminatorOf (translate_enum scenarioB))) (1, 1) =
        some (Discriminator.Known 1) ∧
      mapGet (branchChildrenOf (discriminatorOf (translate_enum scenarioB))) (2, 2) =
        some (Discriminator.Known 2) ∧
      decide_discriminator (branchChildrenOf (discriminatorOf (translate_enum scenarioB)))
        (branchFallbackOf (discriminatorOf (translate_enum scenarioB))) 5 =
        Discriminator.Invalid) := by
  rw [translate_enum_multiple_eq]
  refine ⟨?_, ?_, rfl, rfl, rfl, rfl, rfl, rfl⟩
  · exact transAcc_variant_direct_tagger sz al dty tty off vars p hp
  · show mapGet (transChildren sz al dty tty vstart vend TagEncoding.Direct off vars) _ = _
    exact transAcc_children_direct_mem sz al dty tty off vars p hp

/-- C1 counterexample input: direct encoding, logical discriminant type
signed 8-bit, tag type unsigned 8-bit, one variant with raw discriminant
bits 255 (logical discriminant `-1`). -/
def c1cex : EnumInput :=
  mkMultipleInput ⟨1⟩ 1 i8 u8 0 0 TagEncoding.Direct ⟨0⟩ [⟨255, []⟩]

/-- C1 as frozen is false: the tagger stores the discriminant at the
logical discriminant width (`-1`), not reinterpreted at the tag's
unsigned 8-bit width (`255`). -/
theorem claim1_counterexample :
    (mapGet (enumVariantsOf (translate_enum c1cex)) (int_from_bits 255 i8)).map
        Variant.tagger = some [(⟨0⟩, (u8, -1))] ∧
    ¬ ((mapGet (enumVariantsOf (translate_enum c1cex)) (int_from_bits 255 i8)).map
        Variant.tagger = some [(⟨0⟩, (u8, int_from_bits 255 u8))]) := by
  constructor
  · rfl
  · intro h
    have : ([(⟨0⟩, (u8, -1))] : List (Offset × (IntType × Int))) =
        [(⟨0⟩, (u8, int_from_bits 255 u8))] := by
      have h0 : (mapGet (enumVariantsOf (translate_enum c1cex)) (int_from_bits 255 i8)).map
          Variant.tagger = some [(⟨0⟩, (u8, -1))] := rfl
      rw [h0] at h
      exact Option.some.inj h
    simp only [List.cons.injEq, Prod.mk.injEq] at this
    have hv : (-1 : Int) = int_from_bits 255 u8 := this.1.2.2
    have : int_from_bits 255 u8 = 255 := by decide
    omega

/-- Witness for C1 at scenario B, variant index 1. -/
theorem claim1_witness :
    ((1, (⟨1, []⟩ : VariantInfo)) ∈
      ([⟨0, []⟩, ⟨1, []⟩, ⟨2, []⟩] : List VariantInfo).enum) ∧
    ((∃ var, mapGet (enumVariantsOf (translate_enum
          (mkMultipleInput ⟨1⟩ 1 u8 u8 0 2 TagEncoding.Direct ⟨0⟩
            [⟨0, []⟩, ⟨1, []⟩, ⟨2, []⟩])))
        (int_from_bits 1 u8) = some var ∧
      var.tagger = [(⟨0⟩, (u8, int_from_bits 1 u8))]) ∧
    mapGet (branchChildrenOf (discriminatorOf (translate_enum
          (mkMultipleInput ⟨1⟩ 1 u8 u8 0 2 TagEncoding.Direct ⟨0⟩
            [⟨0, []⟩, ⟨1, []⟩, ⟨2, []⟩]))))
        (int_from_bits 1 u8, int_from_bits 1 u8) =
      some (Discriminator.Known (int_from_bits 1 u8)) ∧
    branchFallbackOf (discriminatorOf (translate_enum
        (mkMultipleInput ⟨1⟩ 1 u8 u8 0 2 TagEncoding.Direct ⟨0⟩
          [⟨0, []⟩, ⟨1, []⟩, ⟨2, []⟩]))) =
      Discriminator.Invalid ∧
    ((branchChildrenOf (discriminatorOf (translate_enum scenarioB))).map Prod.fst =
        [(2, 2), (1, 1), (0, 0)] ∧
      mapGet (branchChildrenOf (discriminatorOf (translate_enum scenarioB))) (0, 0) =
        some (Discriminator.Known 0) ∧
      mapGet (branchChildrenOf (discriminatorOf (translate_enum scenarioB))) (1, 1) =
        some (Discriminator.Known 1) ∧
      mapGet (branchChildrenOf (discriminatorOf (translate_enum scenarioB))) (2, 2) =
        some (Discriminator.Known 2) ∧
      decide_discriminator (branchChildrenOf (discriminatorOf (translate_enum scenarioB)))
        (branchFallbackOf (discriminatorOf (translate_enum scenarioB))) 5 =
        Discriminator.Invalid)) := by
  have hmem : (1, (⟨1, []⟩ : VariantInfo)) ∈
      ([⟨0, []⟩, ⟨1, []⟩, ⟨2, []⟩] : List VariantInfo).enum :=
    List.Mem.tail _ (List.Mem.head _)
  exact ⟨hmem, claim1_direct_tagging ⟨1⟩ 1 u8 u8 0 2 ⟨0⟩
    [⟨0, []⟩, ⟨1, []⟩, ⟨2, []⟩] (1, ⟨1, []⟩) hmem⟩

/-! ## Claim C3 -/

/-- C3: for every niche-encoded enum whose tag valid range `[start, end]`
satisfies `start ≤ end`, the builder registers as `Invalid` branch
children exactly the ranges `[end+1, domain_max]` (only when
`end < domain_max`) and `[domain_min, start-1]` (only when
`domain_min < start`), with the domain bounds derived from the tag
type's width and signedness; in particular, for an unsigned 8-bit tag
with valid range `[10, 10]` (scenario A) the invalid children are
exactly `[11, 255]` and `[0, 9]`. -/
theorem claim3_nonwrap_invalid_ranges (sz : Size) (al : Align)
    (dty tty : IntType) (vstart vend : Nat) (u nvs ns : Nat) (off : Offset)
    (vars : List VariantInfo)
    (hse : int_from_bits vstart tty ≤ int_from_bits vend tty) :
    (int_from_bits vend tty < int_type_max tty →
      mapGet (branchChildrenOf (discriminatorOf (translate_enum
          (mkMultipleInput sz al dty tty vstart vend
            (TagEncoding.Niche u nvs ns) off vars))))
        (int_from_bits vend tty + 1, int_type_max tty) =
        some Discriminator.Invalid) ∧
    (int_type_min tty < int_from_bits vstart tty →
      mapGet (branchChildrenOf (discriminatorOf (translate_enum
          (mkMultipleInput sz al dty tty vstart vend
            (TagEncoding.Niche u nvs ns) off vars))))
        (int_type_min tty, int_from_bits vstart tty - 1) =
        some Discriminator.Invalid) ∧
    (∀ k : Int × Int,
      mapGet (branchChildrenOf (discriminatorOf (translate_enum
          (mkMultipleInput sz al dty tty vstart vend
            (TagEncoding.Niche u nvs ns) off vars)))) k =
        some Discriminator.Invalid →
      (int_from_bits vend tty < int_type_max tty ∧
        k = (int_from_bits vend tty + 1, int_type_max tty)) ∨
      (int_type_min tty < int_from_bits vstart tty ∧
        k = (int_type_min tty, int_from_bits vstart tty - 1))) ∧
    (mapGet (branchChildrenOf (discriminatorOf (translate_enum scenarioA)))
        (11, 255) = some Discriminator.Invalid ∧
      mapGet (branchChildrenOf (discriminatorOf (translate_enum scenarioA)))
        (0, 9) = some Discriminator.Invalid ∧
      ((branchChildrenOf (discriminatorOf (translate_enum scenarioA))).filter
          (fun e => e.2.isInvalid)).map Prod.fst = [(0, 9), (11, 255)]) := by
  rw [translate_enum_multiple_eq]
  refine ⟨?_, ?_, ?_, rfl, rfl, rfl⟩
  · intro h2
    show mapGet (transChildren sz al dty tty vstart vend
      (TagEncoding.Niche u nvs ns) off vars) _ = _
    exact mapGet_add_niche_invalids_high hse h2
  · intro h3
    show mapGet (transChildren sz al dty tty vstart vend
      (TagEncoding.Niche u nvs ns) off vars) _ = _
    exact mapGet_add_niche_invalids_low hse h3
  · intro k hk
    have hk' : mapGet (transChildren sz al dty tty vstart vend
        (TagEncoding.Niche u nvs ns) off vars) k = some Discriminator.Invalid := hk
    have hmem := mem_of_mapGet_eq_some hk'
    unfold transChildren at hmem
    rcases mem_add_niche_invalids hmem with hin | ⟨_, hik⟩
    · obtain ⟨d, hd⟩ := transAcc_children_known sz al dty tty off
        (TagEncoding.Niche u nvs ns) vars _ hin
      cases hd
    · rcases hik with ⟨_, hcase⟩ | ⟨hW, _⟩
      · rcases hcase with ⟨h2, hk2⟩ | ⟨h3, hk3⟩
        · exact Or.inl ⟨h2, hk2⟩
        · exact Or.inr ⟨h3, hk3⟩
      · omega

/-- Witness for C3 at scenario A. -/
theorem claim3_witness :
    (int_from_bits 10 u8 ≤ int_from_bits 10 u8) ∧
    ((int_from_bits 10 u8 < int_type_max u8 →
      mapGet (branchChildrenOf (discriminatorOf (translate_enum
          (mkMultipleInput ⟨1⟩ 1 u8 u8 10 10
            (TagEncoding.Niche 1 0 10) ⟨0⟩ [⟨0, []⟩, ⟨1, []⟩]))))
        (int_from_bits 10 u8 + 1, int_type_max u8) =
        some Discriminator.Invalid) ∧
    (int_type_min u8 < int_from_bits 10 u8 →
      mapGet (branchChildrenOf (discriminatorOf (translate_enum
          (mkMultipleInput ⟨1⟩ 1 u8 u8 10 10
            (TagEncoding.Niche 1 0 10) ⟨0⟩ [⟨0, []⟩, ⟨1, []⟩]))))
        (int_type_min u8, int_from_bits 10 u8 - 1) =
        some Discriminator.Invalid) ∧
    (∀ k : Int × Int,
      mapGet (branchChildrenOf (discriminatorOf (translate_enum
          (mkMultipleInput ⟨1⟩ 1 u8 u8 10 10
            (TagEncoding.Niche 1 0 10) ⟨0⟩ [⟨0, []⟩, ⟨1, []⟩])))) k =
        some Discriminator.Invalid →
      (int_from_bits 10 u8 < int_type_max u8 ∧
        k = (int_from_bits 10 u8 + 1, int_type_max u8)) ∨
      (int_type_min u8 < int_from_bits 10 u8 ∧
        k = (int_type_min u8, int_from_bits 10 u8 - 1))) ∧
    (mapGet (branchChildrenOf (discriminatorOf (translate_enum scenarioA)))
        (11, 255) = some Discriminator.Invalid ∧
      mapGet (branchChildrenOf (discriminatorOf (translate_enum scenarioA)))
        (0, 9) = some Discriminator.Invalid ∧
      ((branchChildrenOf (discriminatorOf (translate_enum scenarioA))).filter
          (fun e => e.2.isInvalid)).map Prod.fst = [(0, 9), (11, 255)])) :=
  ⟨by decide, claim3_nonwrap_invalid_ranges ⟨1⟩ 1 u8 u8 10 10 1 0 10 ⟨0⟩
    [⟨0, []⟩, ⟨1, []⟩] (by decide)⟩

/-! ## Claim C4 -/

/-- C4: for every niche-encoded enum whose tag valid range wraps
(`start > end`): if `end + 1 < start`, exactly one `Invalid` branch
child `[end+1, start-1]` is registered and no other invalid range is
added (for an unsigned 8-bit tag with `start = 250`, `end = 5`, scenario
C, this is exactly `[6, 249]`); if `end + 1 = start` there is no
`Invalid` branch child at all (scenario D). -/
theorem claim4_wrap_invalid_ranges (sz : Size) (al : Align)
    (dty tty : IntType) (vstart vend : Nat) (u nvs ns : Nat) (off : Offset)
    (vars : List VariantInfo)
    (hwrap : int_from_bits vend tty < int_from_bits vstart tty) :
    (int_from_bits vend tty + 1 < int_from_bits vstart tty →
      mapGet (branchChildrenOf (discriminatorOf (translate_enum
          (mkMultipleInput sz al dty tty vstart vend
            (TagEncoding.Niche u nvs ns) off vars))))
        (int_from_bits vend tty + 1, int_from_bits vstart tty - 1) =
        some Discriminator.Invalid ∧
      (∀ k : Int × Int,
        mapGet (branchChildrenOf (discriminatorOf (translate_enum
            (mkMultipleInput sz al dty tty vstart vend
              (TagEncoding.Niche u nvs ns) off vars)))) k =
          some Discriminator.Invalid →
        k = (int_from_bits vend tty + 1, int_from_bits vstart tty - 1))) ∧
    (int_from_bits vend tty + 1 = int_from_bits vstart tty →
      ∀ k : Int × Int,
        mapGet (branchChildrenOf (discriminatorOf (translate_enum
            (mkMultipleInput sz al dty tty vstart vend
              (TagEncoding.Niche u nvs ns) off vars)))) k ≠
          some Discriminator.Invalid) ∧
    (mapGet (branchChildrenOf (discriminatorOf (translate_enum scenarioC)))
        (6, 249) = some Discriminator.Invalid ∧
      ((branchChildrenOf (discriminatorOf (translate_enum scenarioC))).filter
          (fun e => e.2.isInvalid)).map Prod.fst = [(6, 249)] ∧
      ((branchChildrenOf (discriminatorOf (translate_enum scenarioD))).filter
          (fun e => e.2.isInvalid)).map Prod.fst = []) := by
  have hle : ¬ int_from_bits vstart tty ≤ int_from_bits vend tty := by omega
  rw [translate_enum_multiple_eq]
  refine ⟨?_, ?_, rfl, rfl, rfl⟩
  · intro h4
    constructor
    · show mapGet (transChildren sz al dty tty vstart vend
        (TagEncoding.Niche u nvs ns) off vars) _ = _
      exact mapGet_add_niche_invalids_wrap hle h4
    · intro k hk
      have hk' : mapGet (transChildren sz al dty tty vstart vend
          (TagEncoding.Niche u nvs ns) off vars) k = some Discriminator.Invalid := hk
      have hmem := mem_of_mapGet_eq_some hk'
      unfold transChildren at hmem
      rcases mem_add_niche_invalids hmem with hin | ⟨_, hik⟩
      · obtain ⟨d, hd⟩ := transAcc_children_known sz al dty tty off
          (TagEncoding.Niche u nvs ns) vars _ hin
        cases hd
      · rcases hik with ⟨hc, _⟩ | ⟨_, hk4⟩
        · omega
        · exact hk4
  · intro h4 k hk
    have h4' : ¬ int_from_bits vend tty + 1 < int_from_bits vstart tty := by omega
    have hk' : mapGet (transChildren sz al dty tty vstart vend
        (TagEncoding.Niche u nvs ns) off vars) k = some Discriminator.Invalid := hk
    unfold transChildren at hk'
    rw [add_niche_invalids_nogap hle h4'] at hk'
    have hmem := mem_of_mapGet_eq_some hk'
    obtain ⟨d, hd⟩ := transAcc_children_known sz al dty tty off
      (TagEncoding.Niche u nvs ns) vars _ hmem
    cases hd

/-- Witness for C4 at scenario C. -/
theorem claim4_witness :
    (int_from_bits 5 u8 < int_from_bits 250 u8) ∧
    ((int_from_bits 5 u8 + 1 < int_from_bits 250 u8 →
      mapGet (branchChildrenOf (discriminatorOf (translate_enum
          (mkMultipleInput ⟨1⟩ 1 u8 u8 250 5
            (TagEncoding.Niche 1 0 250) ⟨0⟩ [⟨0, []⟩, ⟨1, []⟩]))))
        (int_from_bits 5 u8 + 1, int_from_bits 250 u8 - 1) =
        some Discriminator.Invalid ∧
      (∀ k : Int × Int,
        mapGet (branchChildrenOf (discriminatorOf (translate_enum
            (mkMultipleInput ⟨1⟩ 1 u8 u8 250 5
              (TagEncoding.Niche 1 0 250) ⟨0⟩ [⟨0, []⟩, ⟨1, []⟩])))) k =
          some Discriminator.Invalid →
        k = (int_from_bits 5 u8 + 1, int_from_bits 250 u8 - 1))) ∧
    (int_from_bits 5 u8 + 1 = int_from_bits 250 u8 →
      ∀ k : Int × Int,
        mapGet (branchChildrenOf (discriminatorOf (translate_enum
            (mkMultipleInput ⟨1⟩ 1 u8 u8 250 5
              (TagEncoding.Niche 1 0 250) ⟨0⟩ [⟨0, []⟩, ⟨1, []⟩])))) k ≠
          some Discriminator.Invalid) ∧
    (mapGet (branchChildrenOf (discriminatorOf (translate_enum scenarioC)))
        (6, 249) = some Discriminator.Invalid ∧
      ((branchChildrenOf (discriminatorOf (translate_enum scenarioC))).filter
          (fun e => e.2.isInvalid)).map Prod.fst = [(6, 249)] ∧
      ((branchChildrenOf (discriminatorOf (translate_enum scenarioD))).filter
          (fun e => e.2.isInvalid)).map Prod.fst = [])) :=
  ⟨by decide, claim4_wrap_invalid_ranges ⟨1⟩ 1 u8 u8 250 5 1 0 250 ⟨0⟩
    [⟨0, []⟩, ⟨1, []⟩] (by decide)⟩

/-! ## Claim C7 -/

/-- C7: for every width in {8, 16, 32, 64, 128} and both signednesses,
`int_from_bits` interprets its raw argument as a `w`-bit pattern —
truncating when unsigned, sign-extending from bit `w-1` when signed — so
that for every value representable in the type, `int_from_bits` applied
to the value's `w`-bit two's-complement bit pattern returns exactly that
value. -/
theorem claim7_int_from_bits_inverse (t : IntType)
    (hw : t.size.bits = 8 ∨ t.size.bits = 16 ∨ t.size.bits = 32 ∨
      t.size.bits = 64 ∨ t.size.bits = 128) (v : Int)
    (hmin : int_type_min t ≤ v) (hmax : v ≤ int_type_max t) :
    int_from_bits (to_bits v t) t = v := by
  apply int_from_bits_to_bits t _ v hmin hmax
  have hb : t.size.bits = 8 * t.size.bytes := rfl
  omega

/-- Witness for C7 at the signed 8-bit type and value `-100`. -/
theorem claim7_witness :
    (i8.size.bits = 8 ∨ i8.size.bits = 16 ∨ i8.size.bits = 32 ∨
      i8.size.bits = 64 ∨ i8.size.bits = 128) ∧
    int_type_min i8 ≤ -100 ∧ (-100 : Int) ≤ int_type_max i8 ∧
    int_from_bits (to_bits (-100) i8) i8 = -100 :=
  ⟨Or.inl (by decide), by decide, by decide,
   claim7_int_from_bits_inverse i8 (Or.inl (by decide)) (-100) (by decide) (by decide)⟩

/-! ## Claim C9 -/

/-- An input whose resolved discriminant type is not an integer. -/
def c9input : EnumInput :=
  { size := ⟨1⟩, align := 1
  , discriminant_ty_translated := Ty.bool
  , layout_variants := VariantsLayout.Single 0
  , adt_variants := [⟨0, []⟩] }

/-- C9: when the resolved discriminant type of the enum is not an
integer type, `translate_enum` fails fast (the panic, modelled by
`none`); and `discriminant_for_variant` on a non-enumerated type — a
non-ADT type (the let-else panic) or an ADT that is not an enum (the
`assert!` at line 160) — fails fast likewise. -/
theorem claim9_fail_fast :
    (∀ input : EnumInput,
      (∀ it : IntType, input.discriminant_ty_translated ≠ Ty.int it) →
      translate_enum input = none) ∧
    (∀ (ty : RsTy) (idx : Nat),
      (∀ (vars : List VariantInfo) (dty : Ty),
        ty.kind ≠ RsTyKind.Adt true vars dty) →
      discriminant_for_variant ty idx = none) := by
  constructor
  · intro input h
    unfold translate_enum
    cases hd : input.discriminant_ty_translated with
    | int it => exact absurd hd (h it)
    | bool => rfl
    | tuple fs s a => rfl
    | enumT vs d dt s a => rfl
  · intro ty idx h
    unfold discriminant_for_variant
    cases hk : ty.kind with
    | NotAdt => rfl
    | Adt is_enum vars dty =>
      cases is_enum with
      | true => exact absurd hk (h vars dty)
      | false => rfl

/-- Witness for C9: a `bool` discriminant type aborts translation; both
a non-ADT type and a non-enum ADT (a struct or union) abort
`discriminant_for_variant`. -/
theorem claim9_witness :
    (∀ it : IntType, c9input.discriminant_ty_translated ≠ Ty.int it) ∧
    translate_enum c9input = none ∧
    (∀ (vars : List VariantInfo) (dty : Ty),
      (RsTy.mk RsTyKind.NotAdt).kind ≠ RsTyKind.Adt true vars dty) ∧
    discriminant_for_variant (RsTy.mk RsTyKind.NotAdt) 0 = none ∧
    (∀ (vars : List VariantInfo) (dty : Ty),
      (RsTy.mk (RsTyKind.Adt false [⟨0, []⟩] (Ty.int u8))).kind ≠
        RsTyKind.Adt true vars dty) ∧
    discriminant_for_variant
      (RsTy.mk (RsTyKind.Adt false [⟨0, []⟩] (Ty.int u8))) 0 = none := by
  have hne : ∀ it : IntType, c9input.discriminant_ty_translated ≠ Ty.int it :=
    fun it h => Ty.noConfusion h
  have hk1 : ∀ (vars : List VariantInfo) (dty : Ty),
      (RsTy.mk RsTyKind.NotAdt).kind ≠ RsTyKind.Adt true vars dty := by
    intro vars dty h
    exact RsTyKind.noConfusion h
  have hk2 : ∀ (vars : List VariantInfo) (dty : Ty),
      (RsTy.mk (RsTyKind.Adt false [⟨0, []⟩] (Ty.int u8))).kind ≠
        RsTyKind.Adt true vars dty := by
    intro vars dty h
    injection h with hb hl hd
    cases hb
  exact ⟨hne, claim9_fail_fast.1 c9input hne,
    hk1, claim9_fail_fast.2 (RsTy.mk RsTyKind.NotAdt) 0 hk1,
    hk2, claim9_fail_fast.2
      (RsTy.mk (RsTyKind.Adt false [⟨0, []⟩] (Ty.int u8))) 0 hk2⟩

/-! ## Claim C10 -/

/-- C10: for every multi-variant enum (direct or niche), the
discriminator built by `translate_enum` is a single `Branch` node whose
fallback and every child are terminal — no `Branch` nested inside
another — so resolving the variant reads exactly one integer of the tag
type at `tag_offset`; and in the single-variant case the discriminator
is the bare terminal `Known 0` with the variants map keyed at 0. -/
theorem claim10_flat_discriminator :
    (∀ (sz : Size) (al : Align) (dty tty : IntType) (vstart vend : Nat)
        (enc : TagEncoding) (off : Offset) (vars : List VariantInfo),
      discriminatorOf (translate_enum
          (mkMultipleInput sz al dty tty vstart vend enc off vars)) =
        Discriminator.Branch off tty
          (branchChildrenOf (discriminatorOf (translate_enum
            (mkMultipleInput sz al dty tty vstart vend enc off vars))))
          (branchFallbackOf (discriminatorOf (translate_enum
            (mkMultipleInput sz al dty tty vstart vend enc off vars)))) ∧
      (∀ e ∈ branchChildrenOf (discriminatorOf (translate_enum
          (mkMultipleInput sz al dty tty vstart vend enc off vars))),
        e.2.isBranch = false) ∧
      (branchFallbackOf (discriminatorOf (translate_enum
          (mkMultipleInput sz al dty tty vstart vend enc off vars)))).isBranch =
        false) ∧
    (∀ (sz : Size) (al : Align) (dty : IntType) (idx : Nat)
        (vars : List VariantInfo) (vinfo : VariantInfo),
      vars.get? idx = some vinfo →
      translate_enum (mkSingleInput sz al dty idx vars) =
        some (Ty.enumT [((0 : Int), Variant.mk (Ty.tuple vinfo.fields sz al) [])]
          (Discriminator.Known 0) dty sz al)) := by
  constructor
  · intro sz al dty tty vstart vend enc off vars
    rw [translate_enum_multiple_eq]
    refine ⟨rfl, ?_, ?_⟩
    · intro e he
      have he' : e ∈ transChildren sz al dty tty vstart vend enc off vars := he
      cases enc with
      | Direct =>
        obtain ⟨d, hd⟩ := transAcc_children_known sz al dty tty off
          TagEncoding.Direct vars _ he'
        rw [hd]; rfl
      | Niche u nvs ns =>
        unfold transChildren at he'
        rcases mem_add_niche_invalids he' with hin | ⟨hi, _⟩
        · obtain ⟨d, hd⟩ := transAcc_children_known sz al dty tty off
            (TagEncoding.Niche u nvs ns) vars _ hin
          rw [hd]; rfl
        · rw [hi]; rfl
    · cases enc <;> rfl
  · intro sz al dty idx vars vinfo hget
    have hshape : translate_enum (mkSingleInput sz al dty idx vars) =
        (match vars.get? idx with
         | some vinfo =>
            some (Ty.enumT [((0 : Int), Variant.mk (Ty.tuple vinfo.fields sz al) [])]
              (Discriminator.Known 0) dty sz al)
         | none => none) := rfl
    rw [hshape, hget]

/-- Witness for C10: the multi-variant part at scenario B with the child
`[0,0] ↦ Known 0`, and the single-variant part on a one-variant enum
with raw discriminant 5. -/
theorem claim10_witness :
    ((((0 : Int), (0 : Int)), Discriminator.Known 0) ∈
      branchChildrenOf (discriminatorOf (translate_enum
        (mkMultipleInput ⟨1⟩ 1 u8 u8 0 2 TagEncoding.Direct ⟨0⟩
          [⟨0, []⟩, ⟨1, []⟩, ⟨2, []⟩]))) ∧
     ((((0 : Int), (0 : Int)), Discriminator.Known 0) :
        (Int × Int) × Discriminator).2.isBranch = false) ∧
    (([⟨5, []⟩] : List VariantInfo).get? 0 = some ⟨5, []⟩ ∧
     translate_enum (mkSingleInput ⟨1⟩ 1 u8 0 [⟨5, []⟩]) =
       some (Ty.enumT [((0 : Int), Variant.mk (Ty.tuple [] ⟨1⟩ 1) [])]
         (Discriminator.Known 0) u8 ⟨1⟩ 1)) := by
  have hmem : (((0 : Int), (0 : Int)), Discriminator.Known 0) ∈
      branchChildrenOf (discriminatorOf (translate_enum
        (mkMultipleInput ⟨1⟩ 1 u8 u8 0 2 TagEncoding.Direct ⟨0⟩
          [⟨0, []⟩, ⟨1, []⟩, ⟨2, []⟩]))) :=
    List.Mem.tail _ (List.Mem.tail _ (List.Mem.head _))
  exact ⟨⟨hmem,
    (claim10_flat_discriminator.1 ⟨1⟩ 1 u8 u8 0 2 TagEncoding.Direct ⟨0⟩
      [⟨0, []⟩, ⟨1, []⟩, ⟨2, []⟩]).2.1 _ hmem⟩,
   rfl,
   claim10_flat_discriminator.2 ⟨1⟩ 1 u8 0 [⟨5, []⟩] ⟨5, []⟩ rfl⟩

/-! ## Claim C8 -/

/-- C8 (amended): for direct tag encoding, `discriminant_for_variant`
returns exactly the key under which `translate_enum` stores the same
variant in the variants map; for the single-variant layout the map key
is the constant 0 (matching only when the discriminant is 0), and for
niche encoding the key is the discriminant re-read at the tag type
(matching only when the two interpretations coincide). -/
theorem claim8_discriminant_consistency (sz : Size) (al : Align)
    (dty tty : IntType) (vstart vend : Nat) (off : Offset)
    (vars : List VariantInfo) (p : Nat × VariantInfo) (hp : p ∈ vars.enum) :
    discriminant_for_variant (RsTy.mk (RsTyKind.Adt true vars (Ty.int dty))) p.1 =
      some (int_from_bits p.2.discr_val dty) ∧
    mapGet (enumVariantsOf (translate_enum
        (mkMultipleInput sz al dty tty vstart vend TagEncoding.Direct off vars)))
      (int_from_bits p.2.discr_val dty) ≠ none := by
  have hget : vars.get? p.1 = some p.2 := by
    have := List.mem_enum_iff_getElem?.mp hp
    rwa [List.get?_eq_getElem?]
  constructor
  · have hshape : discriminant_for_variant
        (RsTy.mk (RsTyKind.Adt true vars (Ty.int dty))) p.1 =
        (match vars.get? p.1 with
         | some vinfo => some (int_from_bits vinfo.discr_val dty)
         | none => none) := rfl
    rw [hshape, hget]
  · rw [translate_enum_multiple_eq]
    exact transAcc_variant_ne_none sz al dty tty off TagEncoding.Direct vars p hp

/-- An enumerated type with a single variant whose discriminant is 5:
`discriminant_for_variant` answers 5, but the single-variant translation
keys the variants map at 0. -/
def c8ty : RsTy := RsTy.mk (RsTyKind.Adt true [⟨5, []⟩] (Ty.int u8))

/-- C8 as frozen is false: for the single-variant layout the variants
map is keyed at 0 regardless of the variant's discriminant, while
`discriminant_for_variant` returns the true discriminant (here 5). -/
theorem claim8_counterexample :
    discriminant_for_variant c8ty 0 = some 5 ∧
    enumVariantsOf (translate_enum (mkSingleInput ⟨1⟩ 1 u8 0 [⟨5, []⟩])) =
      [((0 : Int), Variant.mk (Ty.tuple [] ⟨1⟩ 1) [])] ∧
    mapGet (enumVariantsOf (translate_enum (mkSingleInput ⟨1⟩ 1 u8 0 [⟨5, []⟩])))
      5 = none :=
  ⟨rfl, rfl, rfl⟩

/-- Witness for C8 at scenario B, variant index 2. -/
theorem claim8_witness :
    ((2, (⟨2, []⟩ : VariantInfo)) ∈
      ([⟨0, []⟩, ⟨1, []⟩, ⟨2, []⟩] : List VariantInfo).enum) ∧
    (discriminant_for_variant
        (RsTy.mk (RsTyKind.Adt true [⟨0, []⟩, ⟨1, []⟩, ⟨2, []⟩] (Ty.int u8))) 2 =
      some (int_from_bits 2 u8) ∧
    mapGet (enumVariantsOf (translate_enum
        (mkMultipleInput ⟨1⟩ 1 u8 u8 0 2 TagEncoding.Direct ⟨0⟩
          [⟨0, []⟩, ⟨1, []⟩, ⟨2, []⟩])))
      (int_from_bits 2 u8) ≠ none) := by
  have hmem : (2, (⟨2, []⟩ : VariantInfo)) ∈
      ([⟨0, []⟩, ⟨1, []⟩, ⟨2, []⟩] : List VariantInfo).enum :=
    List.Mem.tail _ (List.Mem.tail _ (List.Mem.head _))
  exact ⟨hmem, claim8_discriminant_consistency ⟨1⟩ 1 u8 u8 0 2 ⟨0⟩
    [⟨0, []⟩, ⟨1, []⟩, ⟨2, []⟩] (2, ⟨2, []⟩) hmem⟩

/-- Inversion: a `Known w` terminal reaches only `w`. -/
theorem reachesKnown_known_inv {v w : Int}
    (h : ReachesKnown (Discriminator.Known w) v) : v = w := by
  cases h; rfl

/-- Inversion: `Invalid` reaches no `Known` value. -/
theorem reachesKnown_invalid_inv {v : Int}
    (h : ReachesKnown Discriminator.Invalid v) : False := by
  cases h

/-! ## Claim C6 -/

/-- C6 counterexample input: niche encoding where the untagged variant
(index 0) has discriminant 7, so the fallback `Known 0` (the code uses
the variant's index) names a value absent from the variants map. -/
def c6cex : EnumInput :=
  mkMultipleInput ⟨1⟩ 1 u8 u8 3 3 (TagEncoding.Niche 0 1 3) ⟨0⟩
    [⟨7, []⟩, ⟨1, []⟩]

/-- C6 as frozen is false: the niche fallback is `Known` of the untagged
variant's index, not of its discriminant; when the untagged variant's
discriminant (7) differs from its index (0), the reachable terminal
`Known 0` has no matching entry in the variants map (keyed at 7 and 1). -/
theorem claim6_counterexample :
    branchFallbackOf (discriminatorOf (translate_enum c6cex)) =
      Discriminator.Known 0 ∧
    ReachesKnown (discriminatorOf (translate_enum c6cex)) 0 ∧
    mapGet (enumVariantsOf (translate_enum c6cex)) 0 = none ∧
    int_from_bits 7 u8 = 7 ∧
    mapGet (enumVariantsOf (translate_enum c6cex)) 7 ≠ none := by
  refine ⟨rfl, ?_, rfl, by decide, ?_⟩
  · exact ReachesKnown.fallback (ReachesKnown.here 0)
  · intro h
    have h0 : mapGet (enumVariantsOf (translate_enum c6cex)) 7 =
        some (Variant.mk (Ty.tuple [] ⟨1⟩ 1) []) := rfl
    rw [h0] at h
    cases h

/-- C6 (amended): every `Known v` terminal reachable from the
discriminator of a translated enum has `v` registered in the variants
map, for all three layout kinds — with the proviso that the niche
fallback is `Known` of the untagged variant's *index*, so for niche
encoding this requires the untagged variant's logical discriminant to
equal its index (which rustc's niche layout guarantees, niche encoding
being used only for enums with default discriminants). -/
theorem claim6_known_in_variants :
    (∀ (sz : Size) (al : Align) (dty : IntType) (idx : Nat)
        (vars : List VariantInfo) (vinfo : VariantInfo),
      vars.get? idx = some vinfo →
      ∀ v : Int,
        ReachesKnown (discriminatorOf
          (translate_enum (mkSingleInput sz al dty idx vars))) v →
        mapGet (enumVariantsOf
          (translate_enum (mkSingleInput sz al dty idx vars))) v ≠ none) ∧
    (∀ (sz : Size) (al : Align) (dty tty : IntType) (vstart vend : Nat)
        (off : Offset) (vars : List VariantInfo),
      ∀ v : Int,
        ReachesKnown (discriminatorOf (translate_enum
          (mkMultipleInput sz al dty tty vstart vend TagEncoding.Direct off vars))) v →
        mapGet (enumVariantsOf (translate_enum
          (mkMultipleInput sz al dty tty vstart vend TagEncoding.Direct off vars)))
          v ≠ none) ∧
    (∀ (sz : Size) (al : Align) (dty tty : IntType) (vstart vend : Nat)
        (u nvs ns : Nat) (off : Offset) (vars : List VariantInfo)
        (uinfo : VariantInfo),
      vars.get? u = some uinfo →
      int_from_bits uinfo.discr_val dty = (u : Int) →
      ∀ v : Int,
        ReachesKnown (discriminatorOf (translate_enum
          (mkMultipleInput sz al dty tty vstart vend
            (TagEncoding.Niche u nvs ns) off vars))) v →
        mapGet (enumVariantsOf (translate_enum
          (mkMultipleInput sz al dty tty vstart vend
            (TagEncoding.Niche u nvs ns) off vars))) v ≠ none) := by
  refine ⟨?_, ?_, ?_⟩
  · intro sz al dty idx vars vinfo hget v hreach
    have hshape : translate_enum (mkSingleInput sz al dty idx vars) =
        (match vars.get? idx with
         | some vinfo =>
            some (Ty.enumT [((0 : Int), Variant.mk (Ty.tuple vinfo.fields sz al) [])]
              (Discriminator.Known 0) dty sz al)
         | none => none) := rfl
    have hreach0 : ReachesKnown (Discriminator.Known 0) v := by
      rw [hshape, hget] at hreach
      exact hreach
    have hv := reachesKnown_known_inv hreach0
    subst hv
    intro hnone
    have hnone0 : (some (Variant.mk (Ty.tuple vinfo.fields sz al) [])
        : Option Variant) = none := by
      rw [hshape, hget] at hnone
      exact hnone
    cases hnone0
  · intro sz al dty tty vstart vend off vars v hreach
    rw [translate_enum_multiple_eq] at hreach ⊢
    cases hreach with
    | child he hr =>
      have he2 := he
      have he' : _ ∈ transChildren sz al dty tty vstart vend
        TagEncoding.Direct off vars := he2
      obtain ⟨d, hd⟩ := transAcc_children_known sz al dty tty off
        TagEncoding.Direct vars _ he'
      rw [hd] at hr
      rw [reachesKnown_known_inv hr]
      exact transAcc_known_has_variant sz al dty tty off TagEncoding.Direct
        vars _ he' d hd
    | fallback hr => exact absurd hr (fun h => reachesKnown_invalid_inv h)
  · intro sz al dty tty vstart vend u nvs ns off vars uinfo hget hu v hreach
    rw [translate_enum_multiple_eq] at hreach ⊢
    cases hreach with
    | child he hr =>
      have he2 := he
      have he' : _ ∈ transChildren sz al dty tty vstart vend
        (TagEncoding.Niche u nvs ns) off vars := he2
      unfold transChildren at he'
      rcases mem_add_niche_invalids he' with hin | ⟨hi, _⟩
      · obtain ⟨d, hd⟩ := transAcc_children_known sz al dty tty off
          (TagEncoding.Niche u nvs ns) vars _ hin
        rw [hd] at hr
        rw [reachesKnown_known_inv hr]
        exact transAcc_known_has_variant sz al dty tty off
          (TagEncoding.Niche u nvs ns) vars _ hin d hd
      · rw [hi] at hr
        exact absurd hr (fun h => reachesKnown_invalid_inv h)
    | fallback hr =>
      have hr' : ReachesKnown (Discriminator.Known (u : Int)) v := hr
      have hv := reachesKnown_known_inv hr'
      subst hv
      have hmem : (u, uinfo) ∈ vars.enum := by
        rw [List.mem_enum_iff_getElem?]
        rw [← List.get?_eq_getElem?]
        exact hget
      have hkey : stepKey dty tty (TagEncoding.Niche u nvs ns) (u, uinfo) =
          (u : Int) := by
        simp only [stepKey]
        rw [if_neg (fun h : ¬ u = u => h rfl)]
        exact hu
      have hnn := transAcc_variant_ne_none sz al dty tty off
        (TagEncoding.Niche u nvs ns) vars (u, uinfo) hmem
      rw [hkey] at hnn
      exact hnn

/-- Witness for C6: the niche part at scenario A (untagged variant index
1 with discriminant 1), reaching the fallback `Known 1`. -/
theorem claim6_witness :
    (([⟨0, []⟩, ⟨1, []⟩] : List VariantInfo).get? 1 = some ⟨1, []⟩) ∧
    int_from_bits 1 u8 = ((1 : Nat) : Int) ∧
    ReachesKnown (discriminatorOf (translate_enum
      (mkMultipleInput ⟨1⟩ 1 u8 u8 10 10 (TagEncoding.Niche 1 0 10) ⟨0⟩
        [⟨0, []⟩, ⟨1, []⟩]))) 1 ∧
    mapGet (enumVariantsOf (translate_enum
      (mkMultipleInput ⟨1⟩ 1 u8 u8 10 10 (TagEncoding.Niche 1 0 10) ⟨0⟩
        [⟨0, []⟩, ⟨1, []⟩]))) 1 ≠ none := by
  have hreach : ReachesKnown (discriminatorOf (translate_enum
      (mkMultipleInput ⟨1⟩ 1 u8 u8 10 10 (TagEncoding.Niche 1 0 10) ⟨0⟩
        [⟨0, []⟩, ⟨1, []⟩]))) 1 :=
    ReachesKnown.fallback (ReachesKnown.here 1)
  exact ⟨rfl, by decide, hreach,
    claim6_known_in_variants.2.2 ⟨1⟩ 1 u8 u8 10 10 1 0 10 ⟨0⟩
      [⟨0, []⟩, ⟨1, []⟩] ⟨1, []⟩ rfl (by decide) 1 hreach⟩

/-! ## Claim C2 -/

/-- C2 counterexample input: discriminant type signed 8-bit, tag type
unsigned 8-bit, untagged variant index 0, niche variant index 1 with raw
discriminant bits 255 (logical discriminant `-1`, tag-width
reinterpretation 255), `niche_variants.start = 1`, `niche_start = 0`,
valid range `[254, 254]`. -/
def c2cex : EnumInput :=
  mkMultipleInput ⟨1⟩ 1 i8 u8 254 254 (TagEncoding.Niche 0 1 0) ⟨0⟩
    [⟨0, []⟩, ⟨255, []⟩]

/-- A second C2 counterexample input for the fallback clause: the
untagged variant (index 0) has discriminant 7, and the fallback is
`Known 0` (the index), not `Known 7` (the discriminant). -/
def c2cex2 : EnumInput :=
  mkMultipleInput ⟨1⟩ 1 u8 u8 3 3 (TagEncoding.Niche 0 1 3) ⟨0⟩
    [⟨7, []⟩, ⟨1, []⟩]

/-- C2 as frozen is false on two counts: the branch child for a niche
variant maps to `Known` of the discriminant re-read at the tag's width
(here `Known 255`), not of the logical discriminant (`-1`); and the
fallback is `Known` of the untagged variant's index (here `Known 0`),
not of its discriminant (7). -/
theorem claim2_counterexample :
    int_from_bits 255 i8 = -1 ∧
    niche_tag u8 1 0 255 = 254 ∧
    mapGet (branchChildrenOf (discriminatorOf (translate_enum c2cex)))
      (254, 254) = some (Discriminator.Known 255) ∧
    ¬ (mapGet (branchChildrenOf (discriminatorOf (translate_enum c2cex)))
      (254, 254) = some (Discriminator.Known (-1))) ∧
    branchFallbackOf (discriminatorOf (translate_enum c2cex2)) =
      Discriminator.Known 0 ∧
    int_from_bits 7 u8 = 7 ∧
    ¬ (branchFallbackOf (discriminatorOf (translate_enum c2cex2)) =
      Discriminator.Known 7) := by
  refine ⟨by decide, by decide, rfl, ?_, rfl, by decide, ?_⟩
  · intro h
    have h0 : mapGet (branchChildrenOf (discriminatorOf (translate_enum c2cex)))
        (254, 254) = some (Discriminator.Known 255) := rfl
    have h1 := Option.some.inj (h0.symm.trans h)
    injection h1 with h2
    exact absurd h2 (by decide)
  · intro h
    have h0 : branchFallbackOf (discriminatorOf (translate_enum c2cex2)) =
        Discriminator.Known 0 := rfl
    have h1 := h0.symm.trans h
    injection h1 with h2
    exact absurd h2 (by decide)

/-- C2 (amended): for every enum translated with niche tag encoding,
under the trusted-layout contract that distinct variants receive
distinct variant-map keys and that every niche tag value lies in the
tag's declared valid range: each niche variant is re-read at the tag's
width as `d' = int_from_bits(discr.val, tag_ty)`, assigned the tag value
`t = modulo(d' - niche_variants.start + niche_start, tag_ty)`, given the
tagger `{tag_offset ↦ (tag_ty, t)}`, stored in the variants map under
`d'`, and registered as the branch child `[t, t] ↦ Known d'`; the
untagged variant receives an empty tagger and (stored under its
logical-width discriminant) is not registered as any branch child; the
branch fallback is `Known` of the untagged variant's index. -/
theorem claim2_niche_tagging (sz : Size) (al : Align) (dty tty : IntType)
    (vstart vend : Nat) (u nvs ns : Nat) (off : Offset)
    (vars : List VariantInfo)
    (hinj : ∀ q1 ∈ vars.enum, ∀ q2 ∈ vars.enum,
      stepKey dty tty (TagEncoding.Niche u nvs ns) q1 =
        stepKey dty tty (TagEncoding.Niche u nvs ns) q2 → q1 = q2)
    (hvalid : ∀ q ∈ vars.enum, u ≠ q.1 →
      validTag (int_from_bits vstart tty) (int_from_bits vend tty)
        (niche_tag tty nvs ns q.2.discr_val))
    (p : Nat × VariantInfo) (hp : p ∈ vars.enum) :
    (u ≠ p.1 →
      mapGet (enumVariantsOf (translate_enum (mkMultipleInput sz al dty tty
          vstart vend (TagEncoding.Niche u nvs ns) off vars)))
        (int_from_bits p.2.discr_val tty) =
        some (Variant.mk (Ty.tuple p.2.fields sz al)
          [(off, (tty, niche_tag tty nvs ns p.2.discr_val))]) ∧
      mapGet (branchChildrenOf (discriminatorOf (translate_enum
          (mkMultipleInput sz al dty tty vstart vend
            (TagEncoding.Niche u nvs ns) off vars))))
        (niche_tag tty nvs ns p.2.discr_val, niche_tag tty nvs ns p.2.discr_val) =
        some (Discriminator.Known (int_from_bits p.2.discr_val tty))) ∧
    (u = p.1 →
      mapGet (enumVariantsOf (translate_enum (mkMultipleInput sz al dty tty
          vstart vend (TagEncoding.Niche u nvs ns) off vars)))
        (int_from_bits p.2.discr_val dty) =
        some (Variant.mk (Ty.tuple p.2.fields sz al) [])) ∧
    branchFallbackOf (discriminatorOf (translate_enum
        (mkMultipleInput sz al dty tty vstart vend
          (TagEncoding.Niche u nvs ns) off vars))) =
      Discriminator.Known (u : Int) ∧
    (∀ e ∈ branchChildrenOf (discriminatorOf (translate_enum
        (mkMultipleInput sz al dty tty vstart vend
          (TagEncoding.Niche u nvs ns) off vars))),
      e.2 = Discriminator.Invalid ∨
      ∃ q, q ∈ vars.enum ∧ u ≠ q.1 ∧
        e = ((niche_tag tty nvs ns q.2.discr_val, niche_tag tty nvs ns q.2.discr_val),
             Discriminator.Known (int_from_bits q.2.discr_val tty))) := by
  rw [translate_enum_multiple_eq]
  refine ⟨?_, ?_, rfl, ?_⟩
  · intro hpu
    constructor
    · have hks : stepKey dty tty (TagEncoding.Niche u nvs ns) p =
          int_from_bits p.2.discr_val tty := by
        simp only [stepKey]
        rw [if_pos hpu]
      have hts : stepTagger dty tty off (TagEncoding.Niche u nvs ns) p =
          [(off, (tty, niche_tag tty nvs ns p.2.discr_val))] := by
        simp only [stepTagger]
        rw [if_pos hpu]
      have hm := transAcc_variant_mem sz al dty tty off
        (TagEncoding.Niche u nvs ns) vars p hp (fun q hq hk => hinj q hq p hp hk)
      rw [hks, hts] at hm
      exact hm
    · show mapGet (transChildren sz al dty tty vstart vend
        (TagEncoding.Niche u nvs ns) off vars) _ = _
      unfold transChildren
      rw [mapGet_add_niche_invalids_valid (hvalid p hp hpu)]
      exact transAcc_children_niche_mem sz al dty tty off u nvs ns vars p hp hpu hinj
  · intro hpu
    have hks : stepKey dty tty (TagEncoding.Niche u nvs ns) p =
        int_from_bits p.2.discr_val dty := by
      simp only [stepKey]
      rw [if_neg (fun h => h hpu)]
    have hts : stepTagger dty tty off (TagEncoding.Niche u nvs ns) p = [] := by
      simp only [stepTagger]
      rw [if_neg (fun h => h hpu)]
    have hm := transAcc_variant_mem sz al dty tty off
      (TagEncoding.Niche u nvs ns) vars p hp (fun q hq hk => hinj q hq p hp hk)
    rw [hks, hts] at hm
    exact hm
  · intro e he
    have he' : e ∈ transChildren sz al dty tty vstart vend
      (TagEncoding.Niche u nvs ns) off vars := he
    unfold transChildren at he'
    rcases mem_add_niche_invalids he' with hin | ⟨hi, _⟩
    · obtain ⟨q, hq, hqu, rfl⟩ := transAcc_children_classify_niche
        sz al dty tty off u nvs ns vars _ hin
      exact Or.inr ⟨q, hq, hqu, rfl⟩
    · exact Or.inl hi

/-- Witness for C2 at scenario A (niche variant index 0 with tag 10,
untagged index 1). -/
theorem claim2_witness :
    (∀ q1 ∈ ([⟨0, []⟩, ⟨1, []⟩] : List VariantInfo).enum,
      ∀ q2 ∈ ([⟨0, []⟩, ⟨1, []⟩] : List VariantInfo).enum,
      stepKey u8 u8 (TagEncoding.Niche 1 0 10) q1 =
        stepKey u8 u8 (TagEncoding.Niche 1 0 10) q2 → q1 = q2) ∧
    (∀ q ∈ ([⟨0, []⟩, ⟨1, []⟩] : List VariantInfo).enum, 1 ≠ q.1 →
      validTag (int_from_bits 10 u8) (int_from_bits 10 u8)
        (niche_tag u8 0 10 q.2.discr_val)) ∧
    ((0, (⟨0, []⟩ : VariantInfo)) ∈
      ([⟨0, []⟩, ⟨1, []⟩] : List VariantInfo).enum) ∧
    ((1 ≠ 0 →
      mapGet (enumVariantsOf (translate_enum (mkMultipleInput ⟨1⟩ 1 u8 u8
          10 10 (TagEncoding.Niche 1 0 10) ⟨0⟩ [⟨0, []⟩, ⟨1, []⟩])))
        (int_from_bits 0 u8) =
        some (Variant.mk (Ty.tuple [] ⟨1⟩ 1)
          [(⟨0⟩, (u8, niche_tag u8 0 10 0))]) ∧
      mapGet (branchChildrenOf (discriminatorOf (translate_enum
          (mkMultipleInput ⟨1⟩ 1 u8 u8 10 10
            (TagEncoding.Niche 1 0 10) ⟨0⟩ [⟨0, []⟩, ⟨1, []⟩]))))
        (niche_tag u8 0 10 0, niche_tag u8 0 10 0) =
        some (Discriminator.Known (int_from_bits 0 u8))) ∧
    ((1 : Nat) = 0 →
      mapGet (enumVariantsOf (translate_enum (mkMultipleInput ⟨1⟩ 1 u8 u8
          10 10 (TagEncoding.Niche 1 0 10) ⟨0⟩ [⟨0, []⟩, ⟨1, []⟩])))
        (int_from_bits 0 u8) =
        some (Variant.mk (Ty.tuple [] ⟨1⟩ 1) [])) ∧
    branchFallbackOf (discriminatorOf (translate_enum
        (mkMultipleInput ⟨1⟩ 1 u8 u8 10 10
          (TagEncoding.Niche 1 0 10) ⟨0⟩ [⟨0, []⟩, ⟨1, []⟩]))) =
      Discriminator.Known ((1 : Nat) : Int) ∧
    (∀ e ∈ branchChildrenOf (discriminatorOf (translate_enum
        (mkMultipleInput ⟨1⟩ 1 u8 u8 10 10
          (TagEncoding.Niche 1 0 10) ⟨0⟩ [⟨0, []⟩, ⟨1, []⟩]))),
      e.2 = Discriminator.Invalid ∨
      ∃ q, q ∈ ([⟨0, []⟩, ⟨1, []⟩] : List VariantInfo).enum ∧ 1 ≠ q.1 ∧
        e = ((niche_tag u8 0 10 q.2.discr_val, niche_tag u8 0 10 q.2.discr_val),
             Discriminator.Known (int_from_bits q.2.discr_val u8)))) := by
  have hinj : ∀ q1 ∈ ([⟨0, []⟩, ⟨1, []⟩] : List VariantInfo).enum,
      ∀ q2 ∈ ([⟨0, []⟩, ⟨1, []⟩] : List VariantInfo).enum,
      stepKey u8 u8 (TagEncoding.Niche 1 0 10) q1 =
        stepKey u8 u8 (TagEncoding.Niche 1 0 10) q2 → q1 = q2 := by
    intro q1 h1 q2 h2
    fin_cases h1 <;> fin_cases h2 <;> simp [stepKey] <;> decide
  have hvalid : ∀ q ∈ ([⟨0, []⟩, ⟨1, []⟩] : List VariantInfo).enum, 1 ≠ q.1 →
      validTag (int_from_bits 10 u8) (int_from_bits 10 u8)
        (niche_tag u8 0 10 q.2.discr_val) := by
    intro q hq h
    fin_cases hq
    · unfold validTag
      decide
    · exact absurd rfl h
  have hmem : (0, (⟨0, []⟩ : VariantInfo)) ∈
      ([⟨0, []⟩, ⟨1, []⟩] : List VariantInfo).enum :=
    List.Mem.head _
  exact ⟨hinj, hvalid, hmem,
    claim2_niche_tagging ⟨1⟩ 1 u8 u8 10 10 1 0 10 ⟨0⟩ [⟨0, []⟩, ⟨1, []⟩]
      hinj hvalid (0, ⟨0, []⟩) hmem⟩

/-! ## Claim C5 -/

/-- C5: for every `Branch` node produced by `translate_enum` — for
direct encoding unconditionally, for niche encoding under the
trusted-layout input contract that every niche tag value lies in the
tag's declared valid range — the child ranges are pairwise
non-overlapping; for niche encoding the map from (tag-width) variant
discriminant to tag value is injective and no niche variant's tag value
lies inside any registered `Invalid` range; and the children together
with the fallback resolve every tag-domain value to exactly one
outcome. -/
theorem claim5_branch_totality :
    (∀ (sz : Size) (al : Align) (dty tty : IntType) (vstart vend : Nat)
        (off : Offset) (vars : List VariantInfo),
      pairwiseDisjointChildren (branchChildrenOf (discriminatorOf (translate_enum
        (mkMultipleInput sz al dty tty vstart vend
          TagEncoding.Direct off vars)))) ∧
      (∀ v : Int, int_type_min tty ≤ v → v ≤ int_type_max tty →
        ∃! d, resolvesTo
          (branchChildrenOf (discriminatorOf (translate_enum
            (mkMultipleInput sz al dty tty vstart vend
              TagEncoding.Direct off vars))))
          (branchFallbackOf (discriminatorOf (translate_enum
            (mkMultipleInput sz al dty tty vstart vend
              TagEncoding.Direct off vars))))
          v d)) ∧
    (∀ (sz : Size) (al : Align) (dty tty : IntType) (vstart vend : Nat)
        (u nvs ns : Nat) (off : Offset) (vars : List VariantInfo),
      (∀ q ∈ vars.enum, u ≠ q.1 →
        validTag (int_from_bits vstart tty) (int_from_bits vend tty)
          (niche_tag tty nvs ns q.2.discr_val)) →
      pairwiseDisjointChildren (branchChildrenOf (discriminatorOf (translate_enum
        (mkMultipleInput sz al dty tty vstart vend
          (TagEncoding.Niche u nvs ns) off vars)))) ∧
      (∀ v : Int, int_type_min tty ≤ v → v ≤ int_type_max tty →
        ∃! d, resolvesTo
          (branchChildrenOf (discriminatorOf (translate_enum
            (mkMultipleInput sz al dty tty vstart vend
              (TagEncoding.Niche u nvs ns) off vars))))
          (branchFallbackOf (discriminatorOf (translate_enum
            (mkMultipleInput sz al dty tty vstart vend
              (TagEncoding.Niche u nvs ns) off vars))))
          v d) ∧
      (∀ q1 ∈ vars.enum, ∀ q2 ∈ vars.enum, u ≠ q1.1 → u ≠ q2.1 →
        niche_tag tty nvs ns q1.2.discr_val = niche_tag tty nvs ns q2.2.discr_val →
        int_from_bits q1.2.discr_val tty = int_from_bits q2.2.discr_val tty) ∧
      (∀ q ∈ vars.enum, u ≠ q.1 →
        ∀ e ∈ branchChildrenOf (discriminatorOf (translate_enum
          (mkMultipleInput sz al dty tty vstart vend
            (TagEncoding.Niche u nvs ns) off vars))),
        e.2 = Discriminator.Invalid →
        ¬ (e.1.1 ≤ niche_tag tty nvs ns q.2.discr_val ∧
           niche_tag tty nvs ns q.2.discr_val ≤ e.1.2))) := by
  constructor
  · intro sz al dty tty vstart vend off vars
    rw [translate_enum_multiple_eq]
    have hdisj := transChildren_disjoint_direct sz al dty tty vstart vend off vars
    exact ⟨hdisj, fun v _ _ => resolvesTo_unique _ _
      (transChildren_nodup sz al dty tty vstart vend TagEncoding.Direct off vars)
      hdisj v⟩
  · intro sz al dty tty vstart vend u nvs ns off vars hvalid
    rw [translate_enum_multiple_eq]
    have hdisj := transChildren_disjoint_niche sz al dty tty vstart vend
      u nvs ns off vars hvalid
    refine ⟨hdisj, ?_, ?_, ?_⟩
    · exact fun v _ _ => resolvesTo_unique _ _
        (transChildren_nodup sz al dty tty vstart vend
          (TagEncoding.Niche u nvs ns) off vars)
        hdisj v
    · exact fun q1 _ q2 _ _ _ h => niche_tag_inj tty nvs ns _ _ h
    · intro q hq hqu e he hi
      have he' : e ∈ transChildren sz al dty tty vstart vend
        (TagEncoding.Niche u nvs ns) off vars := he
      rcases transChildren_classify_niche sz al dty tty vstart vend
          u nvs ns off vars hvalid e he' with ⟨t, d, rfl, _⟩ | hik
      · exact Discriminator.noConfusion hi
      · intro hc
        exact invalidKeyOk_not_validTag hik _ hc.1 hc.2 (hvalid q hq hqu)

/-- Witness for C5: the niche part at scenario A. -/
theorem claim5_witness :
    (∀ q ∈ ([⟨0, []⟩, ⟨1, []⟩] : List VariantInfo).enum, 1 ≠ q.1 →
      validTag (int_from_bits 10 u8) (int_from_bits 10 u8)
        (niche_tag u8 0 10 q.2.discr_val)) ∧
    (pairwiseDisjointChildren (branchChildrenOf (discriminatorOf (translate_enum
        (mkMultipleInput ⟨1⟩ 1 u8 u8 10 10
          (TagEncoding.Niche 1 0 10) ⟨0⟩ [⟨0, []⟩, ⟨1, []⟩])))) ∧
      (∀ v : Int, int_type_min u8 ≤ v → v ≤ int_type_max u8 →
        ∃! d, resolvesTo
          (branchChildrenOf (discriminatorOf (translate_enum
            (mkMultipleInput ⟨1⟩ 1 u8 u8 10 10
              (TagEncoding.Niche 1 0 10) ⟨0⟩ [⟨0, []⟩, ⟨1, []⟩]))))
          (branchFallbackOf (discriminatorOf (translate_enum
            (mkMultipleInput ⟨1⟩ 1 u8 u8 10 10
              (TagEncoding.Niche 1 0 10) ⟨0⟩ [⟨0, []⟩, ⟨1, []⟩]))))
          v d) ∧
      (∀ q1 ∈ ([⟨0, []⟩, ⟨1, []⟩] : List VariantInfo).enum,
        ∀ q2 ∈ ([⟨0, []⟩, ⟨1, []⟩] : List VariantInfo).enum,
        1 ≠ q1.1 → 1 ≠ q2.1 →
        niche_tag u8 0 10 q1.2.discr_val = niche_tag u8 0 10 q2.2.discr_val →
        int_from_bits q1.2.discr_val u8 = int_from_bits q2.2.discr_val u8) ∧
      (∀ q ∈ ([⟨0, []⟩, ⟨1, []⟩] : List VariantInfo).enum, 1 ≠ q.1 →
        ∀ e ∈ branchChildrenOf (discriminatorOf (translate_enum
          (mkMultipleInput ⟨1⟩ 1 u8 u8 10 10
            (TagEncoding.Niche 1 0 10) ⟨0⟩ [⟨0, []⟩, ⟨1, []⟩]))),
        e.2 = Discriminator.Invalid →
        ¬ (e.1.1 ≤ niche_tag u8 0 10 q.2.discr_val ∧
           niche_tag u8 0 10 q.2.discr_val ≤ e.1.2))) := by
  have hvalid : ∀ q ∈ ([⟨0, []⟩, ⟨1, []⟩] : List VariantInfo).enum, 1 ≠ q.1 →
      validTag (int_from_bits 10 u8) (int_from_bits 10 u8)
        (niche_tag u8 0 10 q.2.discr_val) := by
    intro q hq h
    fin_cases hq
    · unfold validTag
      decide
    · exact absurd rfl h
  exact ⟨hvalid, claim5_branch_totality.2 ⟨1⟩ 1 u8 u8 10 10 1 0 10 ⟨0⟩
    [⟨0, []⟩, ⟨1, []⟩] hvalid⟩
